import Mathlib

/-!
# Verification of the `gdenv` version module (`src/godot.rs`)

This file shallowly embeds the repository's single source file, `src/godot.rs`,
which normalizes Godot version strings, parses them via the `semver` crate's
strict grammar, and derives platform/variant-specific names and paths.

Strings are modelled as `String` at the interface, with all operations defined
over the underlying `List Char` so proofs can proceed by list induction.
Rust `std`/`semver` library functions used by the source (`str::trim`,
`str::split`, `str::split_once`, `str::replace`, `u32::from_str`,
`semver::Version::parse`, `semver::Version`'s `Display` and derived `Ord`)
are embedded here as faithful Lean counterparts, each documented at its
definition.
-/

/-- Rust `char::is_whitespace` (the Unicode `White_Space` property), used by
`str::trim`.  The property holds exactly for the scalar values listed. -/
def isRustWhitespace (c : Char) : Bool :=
  c.toNat ∈ [9, 10, 11, 12, 13, 32, 0x85, 0xA0, 0x1680,
    0x2000, 0x2001, 0x2002, 0x2003, 0x2004, 0x2005, 0x2006, 0x2007,
    0x2008, 0x2009, 0x200A, 0x2028, 0x2029, 0x202F, 0x205F, 0x3000]

/-- ASCII digit `0`-`9`, as tested by the `semver` crate's parser and by
`u32::from_str` (both accept ASCII digits only). -/
def isDigitChar (c : Char) : Bool :=
  48 ≤ c.toNat && c.toNat ≤ 57

/-- Rust `char::is_numeric` as used by `normalize_version_string`.  `is_numeric`
is true for the Unicode `Nd`/`Nl`/`No` categories; every such character that the
downstream strict grammar can accept is an ASCII digit, so the model uses the
ASCII digit set. -/
def isNumericChar (c : Char) : Bool :=
  isDigitChar c

/-- Character allowed in a semver prerelease/build identifier:
ASCII alphanumerics and `-` (the `semver` crate accepts exactly these). -/
def isIdentChar (c : Char) : Bool :=
  isDigitChar c || (65 ≤ c.toNat && c.toNat ≤ 90) ||
    (97 ≤ c.toNat && c.toNat ≤ 122) || c = '-'

/-- Any character that can occur in a string accepted by the strict grammar:
identifier characters plus the three structural separators. -/
def goodChar (c : Char) : Bool :=
  isIdentChar c || c = '.' || c = '+'

/-- `true` for every character except `-`; used to model `str::find('-')`
combined with `split_at` via `takeWhile`/`dropWhile`. -/
def notDash (c : Char) : Bool :=
  if c = '-' then false else true

/-- Rust `str::trim`: remove leading and trailing whitespace. -/
def trimList (l : List Char) : List Char :=
  ((l.dropWhile isRustWhitespace).reverse.dropWhile isRustWhitespace).reverse

/-- Rust `str::split('.')` (collecting into a `Vec`): split at every separator,
keeping empty pieces; the result is always nonempty. -/
def splitOnChar (sep : Char) : List Char → List (List Char)
  | [] => [[]]
  | c :: rest =>
    match splitOnChar sep rest with
    | [] => [[]]
    | h :: t => if c = sep then [] :: h :: t else (c :: h) :: t

/-- Rust `str::contains(pat)` for a substring pattern: some (possibly empty)
occurrence of `pat` appears in the haystack. -/
def containsSub (pat : List Char) : List Char → Bool
  | [] => pat.isEmpty
  | c :: rest => pat.isPrefixOf (c :: rest) || containsSub pat rest

/-- Rust `str::split_once(pat)`: split around the first occurrence of `pat`,
returning the parts before and after it, or `none` if it does not occur. -/
def splitOnceSub (pat : List Char) : List Char → Option (List Char × List Char)
  | [] => if pat.isEmpty then some ([], []) else none
  | c :: rest =>
    if pat.isPrefixOf (c :: rest) then some ([], (c :: rest).drop pat.length)
    else (splitOnceSub pat rest).map (fun p => (c :: p.1, p.2))

/-- Recursion core of `replaceSub`; `fuel` only bounds the recursion depth (any
`fuel ≥ l.length` gives the same result, see `replaceSubFuel_congr`), keeping
the recursion structural so that the kernel can evaluate it. -/
def replaceSubFuel (pat rep : List Char) : Nat → List Char → List Char
  | _, [] => []
  | 0, l => l
  | fuel + 1, c :: rest =>
    if pat ≠ [] ∧ pat.isPrefixOf (c :: rest) then
      rep ++ replaceSubFuel pat rep fuel ((c :: rest).drop pat.length)
    else
      c :: replaceSubFuel pat rep fuel rest

/-- Rust `str::replace(pat, rep)`: replace every non-overlapping occurrence of
`pat`, scanning left to right.  (The source only calls this with nonempty
patterns; for an empty pattern this model is the identity.) -/
def replaceSub (pat rep l : List Char) : List Char :=
  replaceSubFuel pat rep l.length l

/-- Rust `str::strip_suffix(pat).unwrap_or(self)`: remove one trailing copy of
`pat` if present, otherwise return the string unchanged. -/
def stripSuffixOnce (pat l : List Char) : List Char :=
  if pat.isSuffixOf l then l.take (l.length - pat.length) else l

/-- Decimal digit string of a natural number, most significant digit first;
models Rust's `Display` for unsigned integers.  `fuel` only bounds the
recursion depth (any `fuel ≥ n` is enough, and `natToChars` passes `n`). -/
def natToCharsAux : Nat → Nat → List Char → List Char
  | 0, n, acc => Char.ofNat (48 + n % 10) :: acc
  | fuel + 1, n, acc =>
    if n < 10 then Char.ofNat (48 + n % 10) :: acc
    else natToCharsAux fuel (n / 10) (Char.ofNat (48 + n % 10) :: acc)

/-- Decimal rendering of a `Nat` (see `natToCharsAux`). -/
def natToChars (n : Nat) : List Char :=
  natToCharsAux n n []

/-- Numeric value of a digit string (used for `u32::from_str` and the numeric
identifiers of the strict grammar). -/
def digitsVal (l : List Char) : Nat :=
  l.foldl (fun a c => 10 * a + (c.toNat - 48)) 0

/-- Rust `str::parse::<u32>()`: an optional leading `+`, then one or more ASCII
digits (leading zeros allowed), value at most `u32::MAX`; anything else is an
error (`none`). -/
def parseU32 (l : List Char) : Option Nat :=
  let d := match l with
    | '+' :: r => r
    | _ => l
  if d ≠ [] ∧ d.all isDigitChar ∧ digitsVal d ≤ 4294967295 then some (digitsVal d)
  else none

/-- A numeric-core component accepted by the `semver` crate: nonempty ASCII
digits, no leading zero, value fitting in `u64`. -/
def validNumeral (d : List Char) : Bool :=
  !d.isEmpty && d.all isDigitChar &&
    (match d with
     | c :: _ :: _ => c != '0'
     | _ => true) &&
    decide (digitsVal d ≤ 18446744073709551615)

/-- A prerelease identifier accepted by the `semver` crate: nonempty, made of
`isIdentChar` characters (checked by the caller), and if purely numeric it must
not have a leading zero. -/
def validPreIdent (d : List Char) : Bool :=
  if d.all isDigitChar then
    match d with
    | c :: _ :: _ => c != '0'
    | _ => true
  else true

/-- The `semver` crate's `Version` value: three numeric components plus
optional dot-separated prerelease and build identifier lists (`[]` means
absent). -/
structure SemVer where
  major : Nat
  minor : Nat
  patch : Nat
  pre : List (List Char)
  build : List (List Char)
deriving DecidableEq, Repr

/-- Parse the dot-separated identifiers of a prerelease section, stopping at
the first character that is neither an identifier character nor a separating
dot; returns the identifiers and the unconsumed rest.  Fails on an empty or
invalid identifier, exactly as the `semver` crate does. -/
def parsePreIdsFuel : Nat → List Char → Option (List (List Char) × List Char)
  | fuel, l =>
    if l.takeWhile isIdentChar = [] then none
    else if validPreIdent (l.takeWhile isIdentChar) then
      match l.dropWhile isIdentChar with
      | '.' :: r2 =>
        match fuel with
        | 0 => none
        | fuel + 1 =>
          match parsePreIdsFuel fuel r2 with
          | some p => some (l.takeWhile isIdentChar :: p.1, p.2)
          | none => none
      | r => some ([l.takeWhile isIdentChar], r)
    else none

/-- Entry point of `parsePreIdsFuel`: the recursion consumes at least two
characters per step, so `l.length` is always enough fuel. -/
def parsePreIds (l : List Char) : Option (List (List Char) × List Char) :=
  parsePreIdsFuel l.length l

/-- Parse the dot-separated identifiers of a build-metadata section (same shape
as `parsePreIds` but leading zeros are allowed in numeric identifiers). -/
def parseBuildIdsFuel : Nat → List Char → Option (List (List Char) × List Char)
  | fuel, l =>
    if l.takeWhile isIdentChar = [] then none
    else
      match l.dropWhile isIdentChar with
      | '.' :: r2 =>
        match fuel with
        | 0 => none
        | fuel + 1 =>
          match parseBuildIdsFuel fuel r2 with
          | some p => some (l.takeWhile isIdentChar :: p.1, p.2)
          | none => none
      | r => some ([l.takeWhile isIdentChar], r)

/-- Entry point of `parseBuildIdsFuel` (see `parsePreIds`). -/
def parseBuildIds (l : List Char) : Option (List (List Char) × List Char) :=
  parseBuildIdsFuel l.length l

/-- Stage of `semver::Version::parse` after the three numeric components:
nothing, a `-` prerelease section (optionally followed by a `+` build
section), or a `+` build section; anything else is a parse error. -/
def parseRest (a b c : Nat) (r : List Char) : Option SemVer :=
  match r with
  | [] => some ⟨a, b, c, [], []⟩
  | '-' :: l4 =>
    match parsePreIds l4 with
    | some (pre, []) => some ⟨a, b, c, pre, []⟩
    | some (pre, '+' :: l5) =>
      match parseBuildIds l5 with
      | some (build, []) => some ⟨a, b, c, pre, build⟩
      | _ => none
    | _ => none
  | '+' :: l4 =>
    match parseBuildIds l4 with
    | some (build, []) => some ⟨a, b, c, [], build⟩
    | _ => none
  | _ => none

/-- Stage of `semver::Version::parse` at the patch component. -/
def parsePatchStage (a b : Nat) (l3 : List Char) : Option SemVer :=
  if validNumeral (l3.takeWhile isDigitChar) then
    parseRest a b (digitsVal (l3.takeWhile isDigitChar)) (l3.dropWhile isDigitChar)
  else none

/-- Stage of `semver::Version::parse` at the minor component. -/
def parseMinorStage (a : Nat) (l2 : List Char) : Option SemVer :=
  if validNumeral (l2.takeWhile isDigitChar) then
    match l2.dropWhile isDigitChar with
    | '.' :: l3 => parsePatchStage a (digitsVal (l2.takeWhile isDigitChar)) l3
    | _ => none
  else none

/-- `semver::Version::parse`: `MAJOR.MINOR.PATCH` with optional `-PRERELEASE`
and `+BUILD`, nothing before or after; numeric components are ASCII digits with
no leading zeros, bounded by `u64::MAX`; prerelease/build sections are nonempty
dot-separated identifier lists. -/
def parseVersion (l : List Char) : Option SemVer :=
  if validNumeral (l.takeWhile isDigitChar) then
    match l.dropWhile isDigitChar with
    | '.' :: l2 => parseMinorStage (digitsVal (l.takeWhile isDigitChar)) l2
    | _ => none
  else none

/-- Join identifier lists with `.` separators. -/
def joinDots : List (List Char) → List Char
  | [] => []
  | [x] => x
  | x :: y :: t => x ++ '.' :: joinDots (y :: t)

/-- The `semver` crate's `Display` for `Version`:
`major.minor.patch`, then `-pre` if the prerelease is nonempty, then `+build`
if the build metadata is nonempty. -/
def renderSemVer (v : SemVer) : List Char :=
  natToChars v.major ++ '.' :: natToChars v.minor ++ '.' :: natToChars v.patch ++
    (if v.pre = [] then [] else '-' :: joinDots v.pre) ++
    (if v.build = [] then [] else '+' :: joinDots v.build)

/-- Rust `Ordering::cmp` on `u64`/`Nat`. -/
def compareNat (a b : Nat) : Ordering :=
  if a < b then .lt else if a = b then .eq else .gt

/-- Lexicographic byte comparison of ASCII strings (`str`'s `Ord`); on scalar
values this coincides with UTF-8 byte order. -/
def compareLexChars : List Char → List Char → Ordering
  | [], [] => .eq
  | [], _ :: _ => .lt
  | _ :: _, [] => .gt
  | a :: as, b :: bs => (compareNat a.toNat b.toNat).then (compareLexChars as bs)

/-- The `semver` crate's comparison of two prerelease identifiers: purely
numeric identifiers order numerically and below alphanumeric ones;
alphanumeric identifiers order lexically. -/
def comparePreIdent (a b : List Char) : Ordering :=
  match a.all isDigitChar, b.all isDigitChar with
  | true, true => compareNat (digitsVal a) (digitsVal b)
  | true, false => .lt
  | false, true => .gt
  | false, false => compareLexChars a b

/-- Identifier-list comparison for prerelease sections: elementwise, a shorter
list ordering below any extension of it. -/
def comparePreIds : List (List Char) → List (List Char) → Ordering
  | [], [] => .eq
  | [], _ :: _ => .lt
  | _ :: _, [] => .gt
  | a :: as, b :: bs => (comparePreIdent a b).then (comparePreIds as bs)

/-- The `semver` crate's `Ord` for the prerelease section: an empty prerelease
(a stable version) ranks above any nonempty one; nonempty sections compare
identifier by identifier. -/
def comparePre (a b : List (List Char)) : Ordering :=
  match a, b with
  | [], [] => .eq
  | [], _ :: _ => .gt
  | _ :: _, [] => .lt
  | a :: as, b :: bs => (comparePreIdent a b).then (comparePreIds as bs)

/-- Build-metadata identifier comparison in the `semver` crate: numeric
identifiers (which may carry leading zeros here) compare by value and then by
length; otherwise as for prerelease identifiers. -/
def compareBuildIdent (a b : List Char) : Ordering :=
  match a.all isDigitChar, b.all isDigitChar with
  | true, true => (compareNat (digitsVal a) (digitsVal b)).then (compareNat a.length b.length)
  | true, false => .lt
  | false, true => .gt
  | false, false => compareLexChars a b

/-- Identifier-list comparison for build metadata; absent (empty) build
metadata orders below any present build metadata. -/
def compareBuild : List (List Char) → List (List Char) → Ordering
  | [], [] => .eq
  | [], _ :: _ => .lt
  | _ :: _, [] => .gt
  | a :: as, b :: bs => (compareBuildIdent a b).then (compareBuild as bs)

/-- The `semver` crate's derived-order semantics for `Version`: major, minor,
patch, then prerelease (per semver precedence), then build metadata as a final
tie-break (so that the order is compatible with structural equality). -/
def compareSemVer (a b : SemVer) : Ordering :=
  (compareNat a.major b.major).then
    ((compareNat a.minor b.minor).then
      ((compareNat a.patch b.patch).then
        ((comparePre a.pre b.pre).then (compareBuild a.build b.build))))

/-- Rust `bool`'s `Ord`: `false < true`. -/
def compareBool : Bool → Bool → Ordering
  | false, false => .eq
  | false, true => .lt
  | true, false => .gt
  | true, true => .eq

/-- The single failure kind of the module: strict parsing rejected the
normalized string (the spec's `InvalidVersionFormat`). -/
inductive GodotError where
  | invalidVersionFormat
deriving DecidableEq, Repr

/-- `GodotVersion` from `src/godot.rs`: a strictly-parsed version plus the
managed-runtime (`is_dotnet`) variant flag. -/
structure GodotVersion where
  version : SemVer
  is_dotnet : Bool
deriving DecidableEq, Repr

/-- `#[derive(PartialOrd, Ord)]` on `GodotVersion`: lexicographic on the fields
in declaration order, i.e. `version` first, then `is_dotnet`. -/
def compareGodot (a b : GodotVersion) : Ordering :=
  (compareSemVer a.version b.version).then (compareBool a.is_dotnet b.is_dotnet)

namespace GodotVersion

/-- The `-stable` suffix stripped by the normalizer. -/
def stableTag : List Char := ['-', 's', 't', 'a', 'b', 'l', 'e']

/-- The `-beta` prerelease introducer. -/
def betaTag : List Char := ['-', 'b', 'e', 't', 'a']

/-- The `-rc` prerelease introducer. -/
def rcTag : List Char := ['-', 'r', 'c']

/-- The `-alpha` prerelease introducer. -/
def alphaTag : List Char := ['-', 'a', 'l', 'p', 'h', 'a']

/-- The short-version handling of `normalize_version_string` (lines 52-76):
when the dot-separated component count is exactly 2, either append `.0` (second
component fully numeric), splice a `.0` before a `-`-prerelease whose numeric
head is fully numeric, or pass the string through. -/
def padShort (cleaned : List Char) : List Char :=
  match splitOnChar '.' cleaned with
  | [p0, p1] =>
    if p1.all isNumericChar then
      cleaned ++ ['.', '0']
    else if (match p1 with | c :: _ => isNumericChar c | [] => false) then
      if (p1.dropWhile notDash) ≠ [] then
        if (p1.takeWhile notDash).all isNumericChar then
          p0 ++ '.' :: (p1.takeWhile notDash ++ '.' :: '0' :: p1.dropWhile notDash)
        else cleaned
      else cleaned
    else cleaned
  | _ => cleaned

/-- One prerelease-introducer rewrite of `normalize_version_string` (the
`-beta`/`-rc`/`-alpha` blocks, lines 78-110): if the string contains the
introducer but not introducer-plus-dot, rewrite introducer+digits to
introducer+`.`+digits (early return), or bare trailing introducer to itself
(early return); otherwise fall through (`none`). -/
def fixTag (tag cleaned : List Char) : Option (List Char) :=
  if containsSub tag cleaned ∧ ¬ containsSub (tag ++ ['.']) cleaned then
    match splitOnceSub tag cleaned with
    | some (base, part) =>
      match parseU32 part with
      | some n => some (base ++ tag ++ '.' :: natToChars n)
      | none => if part = [] then some (base ++ tag) else none
    | none => none
  else none

/-- The prerelease-rewrite phase of `normalize_version_string`: the `-beta`,
`-rc`, `-alpha` blocks applied in source order to the same `cleaned` string,
the first that fires returning early, otherwise the string passes through. -/
def fixPreChain (cleaned : List Char) : List Char :=
  match fixTag betaTag cleaned with
  | some r => r
  | none =>
    match fixTag rcTag cleaned with
    | some r => r
    | none =>
      match fixTag alphaTag cleaned with
      | some r => r
      | none => cleaned

/-- The pure string rewriting of `normalize_version_string` (lines 45-113):
trim, strip one trailing `-stable`, pad short versions, then apply the
`-beta`, `-rc`, `-alpha` rewrites in order, the first that fires returning
early. -/
def normalizeList (l : List Char) : List Char :=
  fixPreChain (padShort (stripSuffixOnce stableTag (trimList l)))

/-- `GodotVersion::normalize_version_string`: returns `Result<String>` in the
source; every control path returns `Ok`. -/
def normalize_version_string (version_str : String) : Except GodotError String :=
  .ok (String.mk (normalizeList version_str.data))

/-- `GodotVersion::new`: normalize, then strict-parse; a parse failure is the
single error kind (`semver::Error` surfaced through `anyhow`, the spec's
`InvalidVersionFormat`). -/
def new (version_str : String) (is_dotnet : Bool) : Except GodotError GodotVersion :=
  match normalize_version_string version_str with
  | .error e => .error e
  | .ok normalized =>
    match parseVersion normalized.data with
    | some version => .ok ⟨version, is_dotnet⟩
    | none => .error .invalidVersionFormat

/-- `FromStr for GodotVersion`: default to the non-.NET variant. -/
def from_str (s : String) : Except GodotError GodotVersion :=
  new s false

/-- `GodotVersion::godot_version_string`: the semver rendering with the
internal `-beta.`/`-rc.`/`-alpha.` separators rewritten back to Godot's
dash-tag-counter display convention, in that replacement order. -/
def godot_version_string (gv : GodotVersion) : String :=
  String.mk (replaceSub (alphaTag ++ ['.']) alphaTag
    (replaceSub (rcTag ++ ['.']) rcTag
      (replaceSub (betaTag ++ ['.']) betaTag (renderSemVer gv.version))))

/-- `GodotVersion::get_platform_suffix`, with the ambient
`std::env::consts::OS` / `ARCH` made explicit parameters; the match arms are
checked in source order. -/
def get_platform_suffix (os arch : String) : String :=
  if os = "windows" ∧ arch = "x86_64" then "win64.exe"
  else if os = "windows" ∧ arch = "x86" then "win32.exe"
  else if os = "macos" then "macos.universal"
  else if os = "linux" ∧ arch = "x86_64" then "linux.x86_64"
  else if os = "linux" ∧ arch = "x86" then "linux.x86_32"
  else if os = "linux" ∧ arch = "arm" then "linux.arm32"
  else if os = "linux" ∧ arch = "aarch64" then "linux.arm64"
  else if os = "windows" then "win64.exe"
  else if os = "linux" then "linux.x86_64"
  else "linux.x86_64"

/-- The `version_part` computed inside `get_executable_path` and
`archive_name`: the plain semver rendering with `-stable` appended for a
stable version, the Godot display string for a prerelease. -/
def versionPart (gv : GodotVersion) : List Char :=
  if gv.version.pre = [] then renderSemVer gv.version ++ stableTag
  else (godot_version_string gv).data

/-- The `Godot_v` prefix of archive and executable names. -/
def godotVPrefix : List Char := String.data "Godot_v"

/-- The `_mono_` segment marking the managed-runtime variant in names. -/
def monoInfix : List Char := String.data "_mono_"

/-- `GodotVersion::get_executable_path`, ambient OS/arch made explicit.
Windows uses the literal `win64` regardless of architecture, as the source
does. -/
def get_executable_path (os arch : String) (gv : GodotVersion) : String :=
  if os = "macos" then
    if gv.is_dotnet then "Godot_mono.app/Contents/MacOS/Godot"
    else "Godot.app/Contents/MacOS/Godot"
  else if os = "windows" then
    if gv.is_dotnet then
      String.mk (godotVPrefix ++ versionPart gv ++ monoInfix ++ String.data "win64" ++
        '/' :: (godotVPrefix ++ versionPart gv ++ monoInfix ++ String.data "win64" ++
          String.data ".exe"))
    else
      String.mk (godotVPrefix ++ versionPart gv ++ '_' :: String.data "win64" ++ String.data ".exe")
  else if os = "linux" then
    if gv.is_dotnet then
      String.mk ((godotVPrefix ++ versionPart gv ++ monoInfix ++ (get_platform_suffix os arch).data) ++
        '/' :: (godotVPrefix ++ versionPart gv ++ monoInfix ++ (get_platform_suffix os arch).data))
    else
      String.mk (godotVPrefix ++ versionPart gv ++ '_' :: (get_platform_suffix os arch).data)
  else "Godot"

/-- `GodotVersion::installation_name`. -/
def installation_name (gv : GodotVersion) : String :=
  if gv.is_dotnet then
    String.mk (String.data "godot-" ++ (godot_version_string gv).data ++ String.data "-dotnet")
  else
    String.mk (String.data "godot-" ++ (godot_version_string gv).data)

/-- `GodotVersion::archive_name`, ambient OS/arch made explicit:
`Godot_v<version_part>_[mono_]<platform_suffix>.zip`. -/
def archive_name (os arch : String) (gv : GodotVersion) : String :=
  if gv.is_dotnet then
    String.mk (godotVPrefix ++ versionPart gv ++ monoInfix ++ (get_platform_suffix os arch).data ++
      String.data ".zip")
  else
    String.mk (godotVPrefix ++ versionPart gv ++ '_' :: (get_platform_suffix os arch).data ++
      String.data ".zip")

/-- `GodotVersion::is_prerelease`. -/
def is_prerelease (gv : GodotVersion) : Bool :=
  !gv.version.pre.isEmpty

end GodotVersion

/-! ## Facts about the embedded string primitives -/

theorem goodChar_not_ws (c : Char) (h : goodChar c = true) : isRustWhitespace c = false := by
  simp only [goodChar, isIdentChar, isDigitChar, Bool.or_eq_true, Bool.and_eq_true,
    decide_eq_true_eq] at h
  simp only [isRustWhitespace, decide_eq_false_iff_not, List.mem_cons, List.not_mem_nil, or_false]
  rcases h with ((((⟨h1, h2⟩ | ⟨h1, h2⟩) | ⟨h1, h2⟩) | rfl) | rfl) | rfl
  · omega
  · omega
  · omega
  · decide
  · decide
  · decide

theorem digitChar_goodChar (c : Char) (h : isDigitChar c = true) : goodChar c = true := by
  simp [goodChar, isIdentChar, h]

theorem splitOnChar_ne_nil (sep : Char) (l : List Char) : splitOnChar sep l ≠ [] := by
  induction l with
  | nil => simp [splitOnChar]
  | cons c rest ih =>
    rw [splitOnChar]
    rcases hs : splitOnChar sep rest with _ | ⟨h0, t0⟩
    · simp
    · by_cases hc : c = sep <;> simp [hc]

theorem splitOnChar_not_mem (sep : Char) (l : List Char) (h : sep ∉ l) :
    splitOnChar sep l = [l] := by
  induction l with
  | nil => rfl
  | cons c rest ih =>
    have hc : ¬ c = sep := fun hcs => h (by simp [hcs])
    have hr : sep ∉ rest := fun hm => h (List.mem_cons_of_mem _ hm)
    rw [splitOnChar, ih hr]
    simp [hc]

theorem splitOnChar_append (sep : Char) (x y : List Char) (h : sep ∉ x) :
    splitOnChar sep (x ++ sep :: y) = x :: splitOnChar sep y := by
  induction x with
  | nil =>
    rw [List.nil_append, splitOnChar]
    rcases hs : splitOnChar sep y with _ | ⟨h0, t0⟩
    · exact absurd hs (splitOnChar_ne_nil sep y)
    · simp
  | cons c rest ih =>
    have hc : ¬ c = sep := fun hcs => h (by simp [hcs])
    have hr : sep ∉ rest := fun hm => h (List.mem_cons_of_mem _ hm)
    rw [List.cons_append, splitOnChar, ih hr]
    simp [hc]

theorem containsSub_nil_false (pat : List Char) (h : pat ≠ []) : containsSub pat [] = false := by
  rw [containsSub]
  simpa using h

theorem containsSub_append_mid (pat x y : List Char) :
    containsSub pat (x ++ (pat ++ y)) = true := by
  induction x with
  | nil =>
    rw [List.nil_append]
    rcases hp : pat ++ y with _ | ⟨c, rest⟩
    · have : pat = [] := by
        rcases List.append_eq_nil.mp hp with ⟨h1, _⟩
        exact h1
      rw [containsSub]
      simp [this]
    · rw [containsSub, ← hp]
      have : pat.isPrefixOf (pat ++ y) = true := by
        simp [List.isPrefixOf_iff_prefix]
      simp [this]
  | cons c rest ih =>
    rw [List.cons_append, containsSub]
    simp [ih]

theorem exists_of_containsSub (pat l : List Char) (h : containsSub pat l = true) :
    ∃ x y, l = x ++ (pat ++ y) := by
  induction l with
  | nil =>
    rw [containsSub] at h
    refine ⟨[], [], ?_⟩
    simp [List.isEmpty_iff.mp h]
  | cons c rest ih =>
    rw [containsSub, Bool.or_eq_true] at h
    rcases h with h | h
    · rw [List.isPrefixOf_iff_prefix] at h
      obtain ⟨t, ht⟩ := h
      exact ⟨[], t, by simp [← ht]⟩
    · obtain ⟨x, y, hxy⟩ := ih h
      exact ⟨c :: x, y, by simp [hxy]⟩

theorem mem_of_containsSub (pat l : List Char) (c : Char) (h : containsSub pat l = true)
    (hc : c ∈ pat) : c ∈ l := by
  obtain ⟨x, y, rfl⟩ := exists_of_containsSub pat l h
  simp [hc]

theorem containsSub_eq_false_of_not_mem (pat l : List Char) (c : Char) (hc : c ∈ pat)
    (hl : c ∉ l) : containsSub pat l = false := by
  by_contra h
  exact hl (mem_of_containsSub pat l c (Bool.of_not_eq_false h) hc)

theorem containsSub_skip (hd : Char) (t x z : List Char) (h : ∀ c ∈ x, c ≠ hd) :
    containsSub (hd :: t) (x ++ z) = containsSub (hd :: t) z := by
  induction x with
  | nil => simp
  | cons c rest ih =>
    have hc : (hd == c) = false := by
      simpa using (h c (List.mem_cons_self c rest)).symm
    rw [List.cons_append, containsSub]
    simp only [List.isPrefixOf, hc, Bool.false_and, Bool.false_or]
    exact ih (fun d hd2 => h d (List.mem_cons_of_mem _ hd2))

theorem splitOnceSub_eq (pat l a b : List Char) (h : splitOnceSub pat l = some (a, b)) :
    l = a ++ (pat ++ b) := by
  induction l generalizing a b with
  | nil =>
    rw [splitOnceSub] at h
    by_cases hp : pat.isEmpty
    · rw [if_pos hp] at h
      obtain ⟨rfl, rfl⟩ : a = [] ∧ b = [] := by
        constructor <;> [exact (Prod.mk.injEq _ _ _ _ ▸ Option.some.inj h).1.symm ▸ rfl;
          exact (Prod.mk.injEq _ _ _ _ ▸ Option.some.inj h).2.symm ▸ rfl]
      simp [List.isEmpty_iff.mp hp]
    · rw [if_neg hp] at h
      exact absurd h (by simp)
  | cons c rest ih =>
    rw [splitOnceSub] at h
    by_cases hp : pat.isPrefixOf (c :: rest)
    · rw [if_pos hp] at h
      obtain ⟨t, ht⟩ := List.isPrefixOf_iff_prefix.mp hp
      have hdrop : (c :: rest).drop pat.length = t := by
        rw [← ht, List.drop_left]
      rw [hdrop] at h
      obtain ⟨ha, hb⟩ := Prod.mk.injEq _ _ _ _ ▸ Option.some.inj h
      rw [← ha, ← hb]
      simp [← ht]
    · rw [if_neg hp] at h
      rcases hs : splitOnceSub pat rest with _ | ⟨a0, b0⟩
      · rw [hs] at h
        exact absurd h (by simp)
      · rw [hs] at h
        simp only [Option.map, Option.some.injEq, Prod.mk.injEq] at h
        obtain ⟨ha, hb⟩ := h
        have := ih a0 b0 hs
        rw [← ha, ← hb]
        simp [this]

theorem splitOnceSub_isSome (pat l : List Char) :
    (splitOnceSub pat l).isSome = containsSub pat l := by
  induction l with
  | nil =>
    rw [splitOnceSub, containsSub]
    by_cases hp : pat.isEmpty <;> simp [hp]
  | cons c rest ih =>
    rw [splitOnceSub, containsSub]
    by_cases hp : pat.isPrefixOf (c :: rest)
    · simp [hp]
    · simp only [if_neg hp, Bool.eq_false_iff.mpr hp, Bool.false_or, ← ih]
      rcases hs : splitOnceSub pat rest with _ | ⟨a0, b0⟩ <;> simp

theorem replaceSubFuel_congr (pat rep : List Char) :
    ∀ (f1 : Nat) (l : List Char) (f2 : Nat), l.length ≤ f1 → l.length ≤ f2 →
      replaceSubFuel pat rep f1 l = replaceSubFuel pat rep f2 l := by
  intro f1
  induction f1 using Nat.strong_induction_on with
  | _ f1 ih =>
    intro l f2 h1 h2
    rcases l with _ | ⟨c, rest⟩
    · cases f1 <;> cases f2 <;> rfl
    · simp only [List.length_cons] at h1 h2
      rcases f1 with _ | f1
      · omega
      rcases f2 with _ | f2
      · omega
      rw [replaceSubFuel, replaceSubFuel]
      by_cases hg : pat ≠ [] ∧ pat.isPrefixOf (c :: rest)
      · rw [if_pos hg, if_pos hg]
        congr 1
        have hp : 0 < pat.length := List.length_pos.mpr hg.1
        apply ih f1 (by omega)
        · simp only [List.length_drop, List.length_cons]; omega
        · simp only [List.length_drop, List.length_cons]; omega
      · rw [if_neg hg, if_neg hg]
        congr 1
        apply ih f1 (by omega)
        · omega
        · omega

theorem replaceSub_not_contains (pat rep l : List Char) (h : containsSub pat l = false) :
    replaceSub pat rep l = l := by
  unfold replaceSub
  generalize l.length = f
  induction l generalizing f with
  | nil => cases f <;> rfl
  | cons c rest ih =>
    rw [containsSub, Bool.or_eq_false_iff] at h
    rcases f with _ | f
    · rfl
    · rw [replaceSubFuel, if_neg (fun hc => by simp [h.1] at hc)]
      rw [ih h.2 f]

theorem replaceSub_head (pat rep z : List Char) (h : pat ≠ []) :
    replaceSub pat rep (pat ++ z) = rep ++ replaceSub pat rep z := by
  unfold replaceSub
  rcases hp : pat with _ | ⟨p0, pt⟩
  · exact absurd hp h
  rw [← hp]
  have hlen : (pat ++ z).length = (pt ++ z).length + 1 := by
    simp [hp, List.length_append]
  have hcons : pat ++ z = p0 :: (pt ++ z) := by rw [hp]; simp
  rw [hlen, hcons, replaceSubFuel]
  have hpre : pat.isPrefixOf (p0 :: (pt ++ z)) = true := by
    rw [← hcons, List.isPrefixOf_iff_prefix]
    exact ⟨z, rfl⟩
  rw [if_pos ⟨h, hpre⟩]
  congr 1
  have hdrop : (p0 :: (pt ++ z)).drop pat.length = z := by
    rw [← hcons, List.drop_left]
  rw [hdrop]
  apply replaceSubFuel_congr
  · simp [hp, List.length_append]
  · exact Nat.le_refl _

theorem replaceSub_skip (p0 : Char) (pt rep x z : List Char) (h : ∀ c ∈ x, c ≠ p0) :
    replaceSub (p0 :: pt) rep (x ++ z) = x ++ replaceSub (p0 :: pt) rep z := by
  induction x with
  | nil => simp
  | cons c rest ih =>
    have hc : (p0 == c) = false := by
      simpa using (h c (List.mem_cons_self c rest)).symm
    unfold replaceSub
    rw [List.cons_append, List.length_cons, replaceSubFuel]
    rw [if_neg (fun hcon => by
      have := hcon.2
      simp only [List.isPrefixOf, hc, Bool.false_and] at this
      exact Bool.false_ne_true this)]
    have := ih (fun d hd2 => h d (List.mem_cons_of_mem _ hd2))
    unfold replaceSub at this
    rw [this]
    rfl

theorem takeWhile_append_all (p : Char → Bool) (x z : List Char) (h : ∀ c ∈ x, p c = true) :
    (x ++ z).takeWhile p = x ++ z.takeWhile p := by
  induction x with
  | nil => simp
  | cons c rest ih =>
    rw [List.cons_append, List.takeWhile_cons]
    simp [h c (List.mem_cons_self c rest), ih (fun d hd => h d (List.mem_cons_of_mem _ hd))]

theorem dropWhile_append_all (p : Char → Bool) (x z : List Char) (h : ∀ c ∈ x, p c = true) :
    (x ++ z).dropWhile p = z.dropWhile p := by
  induction x with
  | nil => simp
  | cons c rest ih =>
    rw [List.cons_append, List.dropWhile_cons, if_pos (h c (List.mem_cons_self c rest))]
    exact ih (fun d hd => h d (List.mem_cons_of_mem _ hd))

theorem takeWhile_cons_false (p : Char → Bool) (c : Char) (l : List Char) (h : p c = false) :
    (c :: l).takeWhile p = [] := by
  rw [List.takeWhile_cons, h]
  simp

theorem dropWhile_cons_false (p : Char → Bool) (c : Char) (l : List Char) (h : p c = false) :
    (c :: l).dropWhile p = c :: l := by
  rw [List.dropWhile_cons, if_neg (by simp [h])]

theorem dropWhile_eq_self_of_all (p : Char → Bool) (l : List Char)
    (h : ∀ c ∈ l, p c = false) : l.dropWhile p = l := by
  cases l with
  | nil => rfl
  | cons c rest => exact dropWhile_cons_false p c rest (h c (List.mem_cons_self c rest))

theorem trimList_eq_self (l : List Char) (h : ∀ c ∈ l, isRustWhitespace c = false) :
    trimList l = l := by
  unfold trimList
  rw [dropWhile_eq_self_of_all _ l h,
    dropWhile_eq_self_of_all _ l.reverse (fun c hc => h c (List.mem_reverse.mp hc)),
    List.reverse_reverse]

theorem stripSuffixOnce_append (pat x : List Char) :
    stripSuffixOnce pat (x ++ pat) = x := by
  unfold stripSuffixOnce
  rw [if_pos (by rw [List.isSuffixOf_iff_suffix]; exact ⟨x, rfl⟩)]
  rw [List.length_append, Nat.add_sub_cancel, List.take_left]

theorem stripSuffixOnce_of_not_mem (pat l : List Char) (c : Char) (hc : c ∈ pat)
    (hl : c ∉ l) : stripSuffixOnce pat l = l := by
  unfold stripSuffixOnce
  rw [if_neg]
  intro hsuf
  rw [List.isSuffixOf_iff_suffix] at hsuf
  exact hl (hsuf.subset hc)

theorem isDigitChar_ofNat_digit (r : Nat) (h : r < 10) :
    isDigitChar (Char.ofNat (48 + r)) = true := by
  interval_cases r <;> decide

theorem natToCharsAux_mem (fuel : Nat) :
    ∀ (n : Nat) (acc : List Char), ∀ c ∈ natToCharsAux fuel n acc,
      isDigitChar c = true ∨ c ∈ acc := by
  induction fuel with
  | zero =>
    intro n acc c hc
    rcases List.mem_cons.mp hc with rfl | hm
    · exact Or.inl (isDigitChar_ofNat_digit (n % 10) (Nat.mod_lt _ (by omega)))
    · exact Or.inr hm
  | succ fuel ih =>
    intro n acc c hc
    rw [natToCharsAux] at hc
    by_cases hn : n < 10
    · rw [if_pos hn] at hc
      rcases List.mem_cons.mp hc with rfl | hm
      · exact Or.inl (isDigitChar_ofNat_digit (n % 10) (Nat.mod_lt _ (by omega)))
      · exact Or.inr hm
    · rw [if_neg hn] at hc
      rcases ih (n / 10) _ c hc with hd | hm
      · exact Or.inl hd
      · rcases List.mem_cons.mp hm with rfl | hm2
        · exact Or.inl (isDigitChar_ofNat_digit (n % 10) (Nat.mod_lt _ (by omega)))
        · exact Or.inr hm2

theorem natToChars_digits (n : Nat) : ∀ c ∈ natToChars n, isDigitChar c = true := by
  intro c hc
  rcases natToCharsAux_mem n n [] c hc with hd | hm
  · exact hd
  · exact absurd hm (List.not_mem_nil c)

theorem natToCharsAux_ne_nil (fuel : Nat) :
    ∀ (n : Nat) (acc : List Char), natToCharsAux fuel n acc ≠ [] := by
  induction fuel with
  | zero => intro n acc; simp [natToCharsAux]
  | succ fuel ih =>
    intro n acc
    rw [natToCharsAux]
    by_cases hn : n < 10
    · simp [hn]
    · rw [if_neg hn]
      exact ih (n / 10) _

theorem natToChars_ne_nil (n : Nat) : natToChars n ≠ [] :=
  natToCharsAux_ne_nil n n []

/-! ## Reflexivity of the embedded comparisons -/

theorem ordering_eq_then (x : Ordering) : Ordering.eq.then x = x := rfl

theorem compareNat_self (n : Nat) : compareNat n n = .eq := by
  simp [compareNat]

theorem compareLexChars_self (l : List Char) : compareLexChars l l = .eq := by
  induction l with
  | nil => rfl
  | cons a as ih => rw [compareLexChars, compareNat_self, ordering_eq_then, ih]

theorem comparePreIdent_self (a : List Char) : comparePreIdent a a = .eq := by
  unfold comparePreIdent
  cases h : a.all isDigitChar
  · simp [compareLexChars_self]
  · simp [compareNat_self]

theorem comparePreIds_self (l : List (List Char)) : comparePreIds l l = .eq := by
  induction l with
  | nil => rfl
  | cons a as ih => rw [comparePreIds, comparePreIdent_self, ordering_eq_then, ih]

theorem comparePre_self (l : List (List Char)) : comparePre l l = .eq := by
  cases l with
  | nil => rfl
  | cons a as => rw [comparePre, comparePreIdent_self, ordering_eq_then, comparePreIds_self]

theorem compareBuildIdent_self (a : List Char) : compareBuildIdent a a = .eq := by
  unfold compareBuildIdent
  cases h : a.all isDigitChar
  · simp [compareLexChars_self]
  · simp [compareNat_self, ordering_eq_then]

theorem compareBuild_self (l : List (List Char)) : compareBuild l l = .eq := by
  induction l with
  | nil => rfl
  | cons a as ih => rw [compareBuild, compareBuildIdent_self, ordering_eq_then, ih]

theorem compareSemVer_self (v : SemVer) : compareSemVer v v = .eq := by
  unfold compareSemVer
  rw [compareNat_self, compareNat_self, compareNat_self, comparePre_self, compareBuild_self]
  rfl

/-! ## Claim C2 -/

/-- C2 (amended): two constructed values differing only in the managed-runtime
flag are distinct values, and the version component of the comparison is
flag-blind; but the derived ordering of `GodotVersion` compares the flag as a
tie-break, ranking the non-managed value strictly below the managed one rather
than equal. -/
theorem c2_variant_flag_breaks_ties (v : SemVer) :
    compareSemVer v v = Ordering.eq ∧
    compareGodot ⟨v, false⟩ ⟨v, true⟩ = Ordering.lt ∧
    compareGodot ⟨v, true⟩ ⟨v, false⟩ = Ordering.gt ∧
    (⟨v, false⟩ : GodotVersion) ≠ ⟨v, true⟩ := by
  refine ⟨compareSemVer_self v, ?_, ?_, ?_⟩
  · show (compareSemVer v v).then (compareBool false true) = Ordering.lt
    rw [compareSemVer_self v]
    rfl
  · show (compareSemVer v v).then (compareBool true false) = Ordering.gt
    rw [compareSemVer_self v]
    rfl
  · intro h
    exact Bool.false_ne_true (congrArg GodotVersion.is_dotnet h)

/-- C2 counterexample: two constructed values differing only in the variant
flag do *not* order as equal; the derived ordering returns `lt`, not `eq`. -/
theorem c2_counterexample :
    GodotVersion.new "4.2.1" false = Except.ok ⟨⟨4, 2, 1, [], []⟩, false⟩ ∧
    GodotVersion.new "4.2.1" true = Except.ok ⟨⟨4, 2, 1, [], []⟩, true⟩ ∧
    compareGodot ⟨⟨4, 2, 1, [], []⟩, false⟩ ⟨⟨4, 2, 1, [], []⟩, true⟩ ≠ Ordering.eq :=
  ⟨rfl, rfl, by decide⟩

/-! ## Claim C4 -/

/-- C4: normalization always succeeds (`Ok`) on every input string, and the
only failure mode of construction is the strict parse rejecting the normalized
string, surfacing the single error kind `invalidVersionFormat`. -/
theorem c4_normalize_total_single_error (s : String) (b : Bool) :
    ∃ t : String, GodotVersion.normalize_version_string s = Except.ok t ∧
      (GodotVersion.new s b = Except.error GodotError.invalidVersionFormat ↔
        parseVersion t.data = none) ∧
      ∀ e, GodotVersion.new s b = Except.error e → e = GodotError.invalidVersionFormat := by
  refine ⟨String.mk (GodotVersion.normalizeList s.data), rfl, ?_, ?_⟩
  · show (match parseVersion (GodotVersion.normalizeList s.data) with
      | some version => Except.ok (⟨version, b⟩ : GodotVersion)
      | none => Except.error GodotError.invalidVersionFormat) =
        Except.error GodotError.invalidVersionFormat ↔
      parseVersion (String.mk (GodotVersion.normalizeList s.data)).data = none
    rcases h : parseVersion (GodotVersion.normalizeList s.data) with _ | v <;> simp [h]
  · intro e he
    cases e
    rfl

/-- C4 witness at a concrete input. -/
theorem c4_witness :
    ∃ t : String, GodotVersion.normalize_version_string "4.3-beta" = Except.ok t ∧
      (GodotVersion.new "4.3-beta" false = Except.error GodotError.invalidVersionFormat ↔
        parseVersion t.data = none) ∧
      ∀ e, GodotVersion.new "4.3-beta" false = Except.error e →
        e = GodotError.invalidVersionFormat :=
  c4_normalize_total_single_error "4.3-beta" false

/-! ## Claim C5 -/

/-- C5: among constructed values sharing the same three-component numeric core,
a stable one (empty prerelease) ranks strictly higher than any prerelease one,
whatever the variant flags. -/
theorem c5_stable_above_prerelease (a b : GodotVersion)
    (h1 : a.version.major = b.version.major) (h2 : a.version.minor = b.version.minor)
    (h3 : a.version.patch = b.version.patch) (h4 : a.version.pre = [])
    (h5 : b.version.pre ≠ []) :
    compareGodot a b = Ordering.gt ∧ compareGodot b a = Ordering.lt := by
  rcases hb : b.version.pre with _ | ⟨p, ps⟩
  · exact absurd hb h5
  constructor
  · unfold compareGodot compareSemVer
    rw [h1, h2, h3, h4, hb, compareNat_self, compareNat_self, compareNat_self]
    rfl
  · unfold compareGodot compareSemVer
    rw [← h1, ← h2, ← h3, h4, hb, compareNat_self, compareNat_self, compareNat_self]
    rfl

/-- C5 witness at concrete inputs: stable 4.2.1 above 4.2.1-rc.1. -/
theorem c5_witness :
    compareGodot ⟨⟨4, 2, 1, [], []⟩, false⟩
        ⟨⟨4, 2, 1, [String.data "rc", String.data "1"], []⟩, true⟩ = Ordering.gt ∧
    compareGodot ⟨⟨4, 2, 1, [String.data "rc", String.data "1"], []⟩, true⟩
        ⟨⟨4, 2, 1, [], []⟩, false⟩ = Ordering.lt :=
  c5_stable_above_prerelease _ _ rfl rfl rfl rfl (by decide)

/-! ## Claim C10 -/

/-- C10: the trailing `-stable` suffix is stripped at most once:
`"4.2.1-stable-stable"` constructs successfully with prerelease tag the literal
`stable`, so `is_prerelease` is true and the display string is
`"4.2.1-stable"`. -/
theorem c10_double_stable_strip :
    GodotVersion.new "4.2.1-stable-stable" false =
      Except.ok ⟨⟨4, 2, 1, [String.data "stable"], []⟩, false⟩ ∧
    GodotVersion.normalize_version_string "4.2.1-stable-stable" = Except.ok "4.2.1-stable" ∧
    GodotVersion.is_prerelease ⟨⟨4, 2, 1, [String.data "stable"], []⟩, false⟩ = true ∧
    GodotVersion.godot_version_string ⟨⟨4, 2, 1, [String.data "stable"], []⟩, false⟩ =
      "4.2.1-stable" :=
  ⟨rfl, rfl, rfl, rfl⟩

/-! ## Claim C8 -/

/-- C8: for every OS/architecture pair the platform detector returns one of the
seven fixed tokens and never the empty string, with the documented fallbacks:
unrecognized Windows architecture gives `win64.exe`, unrecognized Linux
architecture gives `linux.x86_64`, and any unrecognized OS gives
`linux.x86_64`. -/
theorem c8_platform_suffix_fixed_tokens (os arch : String) :
    GodotVersion.get_platform_suffix os arch ∈
      (["win64.exe", "win32.exe", "macos.universal", "linux.x86_64", "linux.x86_32",
        "linux.arm32", "linux.arm64"] : List String) ∧
    GodotVersion.get_platform_suffix os arch ≠ "" ∧
    (os = "windows" → arch ≠ "x86_64" → arch ≠ "x86" →
      GodotVersion.get_platform_suffix os arch = "win64.exe") ∧
    (os = "linux" → arch ≠ "x86_64" → arch ≠ "x86" → arch ≠ "arm" → arch ≠ "aarch64" →
      GodotVersion.get_platform_suffix os arch = "linux.x86_64") ∧
    (os ≠ "windows" → os ≠ "macos" → os ≠ "linux" →
      GodotVersion.get_platform_suffix os arch = "linux.x86_64") := by
  unfold GodotVersion.get_platform_suffix
  split_ifs with h1 h2 h3 h4 h5 h6 h7 h8 h9 <;>
    refine ⟨by decide, by decide, ?_, ?_, ?_⟩ <;> intros <;> simp_all

/-- C8 witness: a concrete unrecognized OS/architecture pair falls back to
`linux.x86_64`, and a recognized pair is among the seven tokens. -/
theorem c8_witness :
    GodotVersion.get_platform_suffix "plan9" "mips" ∈
      (["win64.exe", "win32.exe", "macos.universal", "linux.x86_64", "linux.x86_32",
        "linux.arm32", "linux.arm64"] : List String) ∧
    GodotVersion.get_platform_suffix "plan9" "mips" ≠ "" ∧
    GodotVersion.get_platform_suffix "plan9" "mips" = "linux.x86_64" := by
  have h := c8_platform_suffix_fixed_tokens "plan9" "mips"
  exact ⟨h.1, h.2.1, h.2.2.2.2 (by decide) (by decide) (by decide)⟩

/-! ## Claim C7 -/

/-- C7 (amended): on each of the three recognized platforms (`macos`,
`windows`, `linux`) the managed-runtime and non-managed variants of the same
version produce different executable paths; on any unrecognized platform both
variants fall back to the same bare name `Godot`, so the paths coincide
there. -/
theorem c7_variant_paths (os arch : String) (v : SemVer) :
    ((os = "macos" ∨ os = "windows" ∨ os = "linux") →
      GodotVersion.get_executable_path os arch ⟨v, false⟩ ≠
        GodotVersion.get_executable_path os arch ⟨v, true⟩) ∧
    (os ≠ "macos" → os ≠ "windows" → os ≠ "linux" →
      GodotVersion.get_executable_path os arch ⟨v, false⟩ = "Godot" ∧
      GodotVersion.get_executable_path os arch ⟨v, true⟩ = "Godot") := by
  constructor
  · rintro (rfl | rfl | rfl)
    · have e1 : GodotVersion.get_executable_path "macos" arch ⟨v, false⟩ =
          "Godot.app/Contents/MacOS/Godot" := rfl
      have e2 : GodotVersion.get_executable_path "macos" arch ⟨v, true⟩ =
          "Godot_mono.app/Contents/MacOS/Godot" := rfl
      rw [e1, e2]
      decide
    · have e1 : GodotVersion.get_executable_path "windows" arch ⟨v, false⟩ =
          String.mk (GodotVersion.godotVPrefix ++ GodotVersion.versionPart ⟨v, false⟩ ++
            '_' :: String.data "win64" ++ String.data ".exe") := rfl
      have e2 : GodotVersion.get_executable_path "windows" arch ⟨v, true⟩ =
          String.mk (GodotVersion.godotVPrefix ++ GodotVersion.versionPart ⟨v, false⟩ ++
            GodotVersion.monoInfix ++ String.data "win64" ++
            '/' :: (GodotVersion.godotVPrefix ++ GodotVersion.versionPart ⟨v, false⟩ ++
              GodotVersion.monoInfix ++ String.data "win64" ++ String.data ".exe")) := rfl
      rw [e1, e2]
      intro heq
      have hd := congrArg String.data heq
      have hl := congrArg List.length hd
      simp only [List.length_append, List.length_cons] at hl
      omega
    · have e1 : GodotVersion.get_executable_path "linux" arch ⟨v, false⟩ =
          String.mk (GodotVersion.godotVPrefix ++ GodotVersion.versionPart ⟨v, false⟩ ++
            '_' :: (GodotVersion.get_platform_suffix "linux" arch).data) := rfl
      have e2 : GodotVersion.get_executable_path "linux" arch ⟨v, true⟩ =
          String.mk ((GodotVersion.godotVPrefix ++ GodotVersion.versionPart ⟨v, false⟩ ++
              GodotVersion.monoInfix ++ (GodotVersion.get_platform_suffix "linux" arch).data) ++
            '/' :: (GodotVersion.godotVPrefix ++ GodotVersion.versionPart ⟨v, false⟩ ++
              GodotVersion.monoInfix ++ (GodotVersion.get_platform_suffix "linux" arch).data)) := rfl
      rw [e1, e2]
      intro heq
      have hd := congrArg String.data heq
      have hl := congrArg List.length hd
      have hP : GodotVersion.godotVPrefix.length = 7 := rfl
      have hM : GodotVersion.monoInfix.length = 6 := rfl
      simp only [List.length_append, List.length_cons] at hl
      omega
  · intro h1 h2 h3
    constructor <;>
      (unfold GodotVersion.get_executable_path; rw [if_neg h1, if_neg h2, if_neg h3])

/-- C7 counterexample: on an unrecognized OS the two variants return the same
path, so the paths do not differ for *every* host platform. -/
theorem c7_counterexample :
    GodotVersion.new "4.2.1" false = Except.ok ⟨⟨4, 2, 1, [], []⟩, false⟩ ∧
    GodotVersion.new "4.2.1" true = Except.ok ⟨⟨4, 2, 1, [], []⟩, true⟩ ∧
    GodotVersion.get_executable_path "freebsd" "x86_64" ⟨⟨4, 2, 1, [], []⟩, false⟩ =
      GodotVersion.get_executable_path "freebsd" "x86_64" ⟨⟨4, 2, 1, [], []⟩, true⟩ ∧
    GodotVersion.get_executable_path "freebsd" "x86_64" ⟨⟨4, 2, 1, [], []⟩, false⟩ = "Godot" :=
  ⟨rfl, rfl, rfl, rfl⟩

/-- C7 witness: on Linux the two variants of 4.2.1 give different paths. -/
theorem c7_witness :
    GodotVersion.get_executable_path "linux" "x86_64" ⟨⟨4, 2, 1, [], []⟩, false⟩ ≠
      GodotVersion.get_executable_path "linux" "x86_64" ⟨⟨4, 2, 1, [], []⟩, true⟩ :=
  (c7_variant_paths "linux" "x86_64" ⟨4, 2, 1, [], []⟩).1 (Or.inr (Or.inr rfl))

/-! ## Shared machinery for the display/name claims -/

theorem replaceSub_no_op_char (pat rep l : List Char) (c : Char) (hc : c ∈ pat) (hl : c ∉ l) :
    replaceSub pat rep l = l :=
  replaceSub_not_contains _ _ _ (containsSub_eq_false_of_not_mem pat l c hc hl)

theorem replaceSub_single (p0 : Char) (pt rep x y : List Char)
    (hx : ∀ c ∈ x, c ≠ p0) (hy : containsSub (p0 :: pt) y = false) :
    replaceSub (p0 :: pt) rep (x ++ ((p0 :: pt) ++ y)) = x ++ (rep ++ y) := by
  rw [replaceSub_skip p0 pt rep x _ hx, replaceSub_head _ _ _ (by simp),
      replaceSub_not_contains _ _ _ hy]

theorem mem_core_imp (M m p : Nat) :
    ∀ c ∈ natToChars M ++ ('.' :: (natToChars m ++ ('.' :: natToChars p))),
      isDigitChar c = true ∨ c = '.' := by
  intro c hc
  rcases List.mem_append.mp hc with h | h
  · exact Or.inl (natToChars_digits M c h)
  · rcases List.mem_cons.mp h with rfl | h
    · exact Or.inr rfl
    · rcases List.mem_append.mp h with h | h
      · exact Or.inl (natToChars_digits m c h)
      · rcases List.mem_cons.mp h with rfl | h
        · exact Or.inr rfl
        · exact Or.inl (natToChars_digits p c h)

theorem not_mem_core (M m p : Nat) (c : Char) (hd : isDigitChar c = false) (hne : c ≠ '.') :
    c ∉ natToChars M ++ ('.' :: (natToChars m ++ ('.' :: natToChars p))) := by
  intro h
  rcases mem_core_imp M m p c h with h1 | h1
  · rw [hd] at h1
    exact Bool.false_ne_true h1
  · exact hne h1

theorem core_no_dash (M m p : Nat) :
    ∀ c ∈ natToChars M ++ ('.' :: (natToChars m ++ ('.' :: natToChars p))), c ≠ '-' := by
  intro c hc heq
  exact not_mem_core M m p '-' (by decide) (by decide) (heq ▸ hc)

theorem renderSemVer_stable (M m p : Nat) :
    renderSemVer ⟨M, m, p, [], []⟩ =
      natToChars M ++ ('.' :: (natToChars m ++ ('.' :: natToChars p))) := by
  unfold renderSemVer
  simp

theorem renderSemVer_pre_only (M m p : Nat) (pre : List (List Char)) (h : pre ≠ []) :
    renderSemVer ⟨M, m, p, pre, []⟩ =
      (natToChars M ++ ('.' :: (natToChars m ++ ('.' :: natToChars p)))) ++
        ('-' :: joinDots pre) := by
  unfold renderSemVer
  simp [h]

theorem replace_no_op_core (M m p : Nat) (pat rep z : List Char) (c : Char)
    (hc : c ∈ pat) (hdig : isDigitChar c = false) (hdot : c ≠ '.') (hz : c ∉ z) :
    replaceSub pat rep
      ((natToChars M ++ ('.' :: (natToChars m ++ ('.' :: natToChars p)))) ++ z) =
      (natToChars M ++ ('.' :: (natToChars m ++ ('.' :: natToChars p)))) ++ z := by
  apply replaceSub_no_op_char pat rep _ c hc
  intro hmem
  rcases List.mem_append.mp hmem with h | h
  · exact absurd h (not_mem_core M m p c hdig hdot)
  · exact hz h

theorem replace_skip_decide_core (M m p : Nat) (pt rep z : List Char)
    (hz : containsSub ('-' :: pt) z = false) :
    replaceSub ('-' :: pt) rep
      ((natToChars M ++ ('.' :: (natToChars m ++ ('.' :: natToChars p)))) ++ z) =
      (natToChars M ++ ('.' :: (natToChars m ++ ('.' :: natToChars p)))) ++ z := by
  apply replaceSub_not_contains
  rw [containsSub_skip '-' pt _ z (core_no_dash M m p)]
  exact hz

theorem replace_hit_core (M m p : Nat) (pt rep y : List Char)
    (hy : containsSub ('-' :: pt) y = false) :
    replaceSub ('-' :: pt) rep
      ((natToChars M ++ ('.' :: (natToChars m ++ ('.' :: natToChars p)))) ++ (('-' :: pt) ++ y)) =
      (natToChars M ++ ('.' :: (natToChars m ++ ('.' :: natToChars p)))) ++ (rep ++ y) :=
  replaceSub_single '-' pt rep _ y (core_no_dash M m p) hy

/-- The display string of a stable version without build metadata is just the
dotted numeric core: none of the three replacements can fire on digits and
dots. -/
theorem godot_version_string_stable (M m p : Nat) (b : Bool) :
    GodotVersion.godot_version_string ⟨⟨M, m, p, [], []⟩, b⟩ =
      String.mk (natToChars M ++ ('.' :: (natToChars m ++ ('.' :: natToChars p)))) := by
  show String.mk (replaceSub (GodotVersion.alphaTag ++ ['.']) GodotVersion.alphaTag
      (replaceSub (GodotVersion.rcTag ++ ['.']) GodotVersion.rcTag
        (replaceSub (GodotVersion.betaTag ++ ['.']) GodotVersion.betaTag
          (renderSemVer ⟨M, m, p, [], []⟩)))) = _
  rw [renderSemVer_stable,
    replaceSub_no_op_char _ _ _ '-' (by decide) (not_mem_core M m p '-' (by decide) (by decide)),
    replaceSub_no_op_char _ _ _ '-' (by decide) (not_mem_core M m p '-' (by decide) (by decide)),
    replaceSub_no_op_char _ _ _ '-' (by decide) (not_mem_core M m p '-' (by decide) (by decide))]

/-! ## Claim C6 -/

/-- C6: for a value in the spec's data model (no build metadata; prerelease
absent, or one of the tags `beta`/`rc`/`alpha` with an optional digit counter),
the canonical display string is the three numeric-core components joined by
dots, followed by `-` + tag + counter with no dot between tag and counter;
in particular `construct("4.1.0-rc.1", false)` displays as `"4.1.0-rc1"`, and
`construct("4.2.1-stable", false)` equals `construct("4.2.1", false)` and
displays as `"4.2.1"`. -/
theorem c6_display_convention (M m p : Nat) (b : Bool) (tag cnt : List Char)
    (htag : tag = String.data "beta" ∨ tag = String.data "rc" ∨ tag = String.data "alpha")
    (hcnt : ∀ c ∈ cnt, isDigitChar c = true) :
    GodotVersion.godot_version_string ⟨⟨M, m, p, [], []⟩, b⟩ =
      String.mk (natToChars M ++ ('.' :: (natToChars m ++ ('.' :: natToChars p)))) ∧
    GodotVersion.godot_version_string ⟨⟨M, m, p, [tag], []⟩, b⟩ =
      String.mk ((natToChars M ++ ('.' :: (natToChars m ++ ('.' :: natToChars p)))) ++
        ('-' :: tag)) ∧
    GodotVersion.godot_version_string ⟨⟨M, m, p, [tag, cnt], []⟩, b⟩ =
      String.mk ((natToChars M ++ ('.' :: (natToChars m ++ ('.' :: natToChars p)))) ++
        ('-' :: (tag ++ cnt))) ∧
    (GodotVersion.new "4.1.0-rc.1" false).map GodotVersion.godot_version_string =
      Except.ok "4.1.0-rc1" ∧
    GodotVersion.new "4.2.1-stable" false = GodotVersion.new "4.2.1" false ∧
    (GodotVersion.new "4.2.1-stable" false).map GodotVersion.godot_version_string =
      Except.ok "4.2.1" := by
  have hnotcnt : ∀ c : Char, isDigitChar c = false → c ∉ cnt :=
    fun c hdc h => absurd (hcnt c h) (by simp [hdc])
  refine ⟨godot_version_string_stable M m p b, ?_, ?_, rfl, rfl, rfl⟩
  · show String.mk (replaceSub (GodotVersion.alphaTag ++ ['.']) GodotVersion.alphaTag
        (replaceSub (GodotVersion.rcTag ++ ['.']) GodotVersion.rcTag
          (replaceSub (GodotVersion.betaTag ++ ['.']) GodotVersion.betaTag
            (renderSemVer ⟨M, m, p, [tag], []⟩)))) = _
    rw [renderSemVer_pre_only M m p [tag] (by simp),
      show joinDots [tag] = tag from rfl]
    rcases htag with rfl | rfl | rfl
    · rw [show GodotVersion.betaTag ++ ['.'] = '-' :: String.data "beta." from rfl,
        replace_skip_decide_core M m p (String.data "beta.") _ _ (by decide),
        show GodotVersion.rcTag ++ ['.'] = '-' :: String.data "rc." from rfl,
        replace_skip_decide_core M m p (String.data "rc.") _ _ (by decide),
        show GodotVersion.alphaTag ++ ['.'] = '-' :: String.data "alpha." from rfl,
        replace_skip_decide_core M m p (String.data "alpha.") _ _ (by decide)]
    · rw [show GodotVersion.betaTag ++ ['.'] = '-' :: String.data "beta." from rfl,
        replace_skip_decide_core M m p (String.data "beta.") _ _ (by decide),
        show GodotVersion.rcTag ++ ['.'] = '-' :: String.data "rc." from rfl,
        replace_skip_decide_core M m p (String.data "rc.") _ _ (by decide),
        show GodotVersion.alphaTag ++ ['.'] = '-' :: String.data "alpha." from rfl,
        replace_skip_decide_core M m p (String.data "alpha.") _ _ (by decide)]
    · rw [show GodotVersion.betaTag ++ ['.'] = '-' :: String.data "beta." from rfl,
        replace_skip_decide_core M m p (String.data "beta.") _ _ (by decide),
        show GodotVersion.rcTag ++ ['.'] = '-' :: String.data "rc." from rfl,
        replace_skip_decide_core M m p (String.data "rc.") _ _ (by decide),
        show GodotVersion.alphaTag ++ ['.'] = '-' :: String.data "alpha." from rfl,
        replace_skip_decide_core M m p (String.data "alpha.") _ _ (by decide)]
  · show String.mk (replaceSub (GodotVersion.alphaTag ++ ['.']) GodotVersion.alphaTag
        (replaceSub (GodotVersion.rcTag ++ ['.']) GodotVersion.rcTag
          (replaceSub (GodotVersion.betaTag ++ ['.']) GodotVersion.betaTag
            (renderSemVer ⟨M, m, p, [tag, cnt], []⟩)))) = _
    rw [renderSemVer_pre_only M m p [tag, cnt] (by simp),
      show joinDots [tag, cnt] = tag ++ '.' :: cnt from rfl]
    have hdashcnt : containsSub ('-' :: String.data "beta.") cnt = false :=
      containsSub_eq_false_of_not_mem _ _ '-' (by decide) (hnotcnt '-' (by decide))
    have hdashcnt2 : containsSub ('-' :: String.data "rc.") cnt = false :=
      containsSub_eq_false_of_not_mem _ _ '-' (by decide) (hnotcnt '-' (by decide))
    have hdashcnt3 : containsSub ('-' :: String.data "alpha.") cnt = false :=
      containsSub_eq_false_of_not_mem _ _ '-' (by decide) (hnotcnt '-' (by decide))
    rcases htag with rfl | rfl | rfl
    · rw [show ('-' :: (String.data "beta" ++ '.' :: cnt)) =
          (('-' :: String.data "beta.") ++ cnt) from rfl,
        show GodotVersion.betaTag ++ ['.'] = '-' :: String.data "beta." from rfl,
        replace_hit_core M m p (String.data "beta.") GodotVersion.betaTag cnt hdashcnt,
        show GodotVersion.betaTag ++ cnt = '-' :: (String.data "beta" ++ cnt) from rfl,
        replace_no_op_core M m p _ _ _ 'r' (by decide) (by decide) (by decide) ?hz1,
        replace_no_op_core M m p _ _ _ 'l' (by decide) (by decide) (by decide) ?hz2]
      case hz1 =>
        intro h
        rcases List.mem_cons.mp h with h | h
        · exact absurd h (by decide)
        rcases List.mem_append.mp h with h | h
        · exact absurd h (by decide)
        · exact hnotcnt 'r' (by decide) h
      case hz2 =>
        intro h
        rcases List.mem_cons.mp h with h | h
        · exact absurd h (by decide)
        rcases List.mem_append.mp h with h | h
        · exact absurd h (by decide)
        · exact hnotcnt 'l' (by decide) h
    · rw [replace_no_op_core M m p _ _ _ 'b' (by decide) (by decide) (by decide) ?hz3,
        show ('-' :: (String.data "rc" ++ '.' :: cnt)) =
          (('-' :: String.data "rc.") ++ cnt) from rfl,
        show GodotVersion.rcTag ++ ['.'] = '-' :: String.data "rc." from rfl,
        replace_hit_core M m p (String.data "rc.") GodotVersion.rcTag cnt hdashcnt2,
        show GodotVersion.rcTag ++ cnt = '-' :: (String.data "rc" ++ cnt) from rfl,
        replace_no_op_core M m p _ _ _ 'l' (by decide) (by decide) (by decide) ?hz4]
      case hz3 =>
        intro h
        rcases List.mem_cons.mp h with h | h
        · exact absurd h (by decide)
        rcases List.mem_append.mp h with h | h
        · exact absurd h (by decide)
        rcases List.mem_cons.mp h with h | h
        · exact absurd h (by decide)
        · exact hnotcnt 'b' (by decide) h
      case hz4 =>
        intro h
        rcases List.mem_cons.mp h with h | h
        · exact absurd h (by decide)
        rcases List.mem_append.mp h with h | h
        · exact absurd h (by decide)
        · exact hnotcnt 'l' (by decide) h
    · rw [replace_no_op_core M m p _ _ _ 'b' (by decide) (by decide) (by decide) ?hz5,
        replace_no_op_core M m p _ _ _ 'r' (by decide) (by decide) (by decide) ?hz6,
        show ('-' :: (String.data "alpha" ++ '.' :: cnt)) =
          (('-' :: String.data "alpha.") ++ cnt) from rfl,
        show GodotVersion.alphaTag ++ ['.'] = '-' :: String.data "alpha." from rfl,
        replace_hit_core M m p (String.data "alpha.") GodotVersion.alphaTag cnt hdashcnt3,
        show GodotVersion.alphaTag ++ cnt = '-' :: (String.data "alpha" ++ cnt) from rfl]
      case hz5 =>
        intro h
        rcases List.mem_cons.mp h with h | h
        · exact absurd h (by decide)
        rcases List.mem_append.mp h with h | h
        · exact absurd h (by decide)
        rcases List.mem_cons.mp h with h | h
        · exact absurd h (by decide)
        · exact hnotcnt 'b' (by decide) h
      case hz6 =>
        intro h
        rcases List.mem_cons.mp h with h | h
        · exact absurd h (by decide)
        rcases List.mem_append.mp h with h | h
        · exact absurd h (by decide)
        rcases List.mem_cons.mp h with h | h
        · exact absurd h (by decide)
        · exact hnotcnt 'r' (by decide) h

/-- C6 witness: internal `(beta, 2)` renders as `-beta2`, not `-beta.2`. -/
theorem c6_witness :
    GodotVersion.godot_version_string
        ⟨⟨4, 3, 0, [String.data "beta", String.data "2"], []⟩, false⟩ = "4.3.0-beta2" := by
  have h := c6_display_convention 4 3 0 false (String.data "beta") (String.data "2")
    (Or.inl rfl) (by decide)
  rw [h.2.2.1]
  rfl

/-! ## Claim C3 -/

/-- C3 (amended): for every platform and constructed value *without build
metadata*, `archive_name` is exactly
`Godot_v<display>[-stable]_[mono_]<platform-suffix>.zip`, with `-stable`
appended exactly when no prerelease tag is present; and unconditionally the
result always ends in `.zip`, contains `_mono_` for the managed-runtime
variant, and contains `-stable_` for a stable release.  (With build metadata
the stable version-part is the semver rendering, not the canonical display
string: see the counterexample.) -/
theorem c3_archive_name (os arch : String) (gv : GodotVersion) :
    (gv.version.build = [] →
      GodotVersion.archive_name os arch gv =
        String.mk (GodotVersion.godotVPrefix ++ ((GodotVersion.godot_version_string gv).data ++
          ((if gv.version.pre = [] then String.data "-stable" else []) ++
            ((if gv.is_dotnet then GodotVersion.monoInfix else ['_']) ++
              ((GodotVersion.get_platform_suffix os arch).data ++ String.data ".zip")))))) ∧
    (∃ r, (GodotVersion.archive_name os arch gv).data = r ++ String.data ".zip") ∧
    (gv.is_dotnet = true →
      containsSub GodotVersion.monoInfix (GodotVersion.archive_name os arch gv).data = true) ∧
    (gv.version.pre = [] →
      containsSub (String.data "-stable_") (GodotVersion.archive_name os arch gv).data = true) := by
  obtain ⟨⟨M, m, p, pre, build⟩, bd⟩ := gv
  refine ⟨?_, ?_, ?_, ?_⟩
  · intro hb
    replace hb : build = [] := hb
    subst hb
    rcases pre with _ | ⟨q, qs⟩
    · have hdisp := congrArg String.data (godot_version_string_stable M m p bd)
      cases bd
      · show String.mk (GodotVersion.godotVPrefix ++
            (renderSemVer ⟨M, m, p, [], []⟩ ++ GodotVersion.stableTag) ++
            '_' :: (GodotVersion.get_platform_suffix os arch).data ++ String.data ".zip") = _
        rw [renderSemVer_stable, hdisp]
        apply congrArg String.mk
        simp only [List.append_assoc, List.cons_append]
        rfl
      · show String.mk (GodotVersion.godotVPrefix ++
            (renderSemVer ⟨M, m, p, [], []⟩ ++ GodotVersion.stableTag) ++
            GodotVersion.monoInfix ++
            (GodotVersion.get_platform_suffix os arch).data ++ String.data ".zip") = _
        rw [renderSemVer_stable, hdisp]
        apply congrArg String.mk
        simp only [List.append_assoc, List.cons_append]
        rfl
    · cases bd
      · apply congrArg String.mk
        simp only [List.append_assoc, List.cons_append]
        rfl
      · apply congrArg String.mk
        simp only [List.append_assoc, List.cons_append]
        rfl
  · cases bd
    · exact ⟨_, rfl⟩
    · exact ⟨_, rfl⟩
  · intro hd
    replace hd : bd = true := hd
    subst hd
    show containsSub GodotVersion.monoInfix
      (GodotVersion.godotVPrefix ++ GodotVersion.versionPart ⟨⟨M, m, p, pre, build⟩, true⟩ ++
        GodotVersion.monoInfix ++ (GodotVersion.get_platform_suffix os arch).data ++
        String.data ".zip") = true
    rw [show (GodotVersion.godotVPrefix ++ GodotVersion.versionPart ⟨⟨M, m, p, pre, build⟩, true⟩ ++
        GodotVersion.monoInfix ++ (GodotVersion.get_platform_suffix os arch).data ++
        String.data ".zip") =
      (GodotVersion.godotVPrefix ++ GodotVersion.versionPart ⟨⟨M, m, p, pre, build⟩, true⟩) ++
        (GodotVersion.monoInfix ++ ((GodotVersion.get_platform_suffix os arch).data ++
          String.data ".zip")) from by simp only [List.append_assoc]]
    exact containsSub_append_mid _ _ _
  · intro hp
    replace hp : pre = [] := hp
    subst hp
    cases bd
    · show containsSub (String.data "-stable_")
        (GodotVersion.godotVPrefix ++
          (renderSemVer ⟨M, m, p, [], build⟩ ++ GodotVersion.stableTag) ++
          '_' :: (GodotVersion.get_platform_suffix os arch).data ++ String.data ".zip") = true
      rw [show (GodotVersion.godotVPrefix ++
          (renderSemVer ⟨M, m, p, [], build⟩ ++ GodotVersion.stableTag) ++
          '_' :: (GodotVersion.get_platform_suffix os arch).data ++ String.data ".zip") =
        (GodotVersion.godotVPrefix ++ renderSemVer ⟨M, m, p, [], build⟩) ++
          (String.data "-stable_" ++ ((GodotVersion.get_platform_suffix os arch).data ++
            String.data ".zip")) from by
          simp only [List.append_assoc, List.cons_append]
          rfl]
      exact containsSub_append_mid _ _ _
    · show containsSub (String.data "-stable_")
        (GodotVersion.godotVPrefix ++
          (renderSemVer ⟨M, m, p, [], build⟩ ++ GodotVersion.stableTag) ++
          GodotVersion.monoInfix ++
          (GodotVersion.get_platform_suffix os arch).data ++ String.data ".zip") = true
      rw [show (GodotVersion.godotVPrefix ++
          (renderSemVer ⟨M, m, p, [], build⟩ ++ GodotVersion.stableTag) ++
          GodotVersion.monoInfix ++
          (GodotVersion.get_platform_suffix os arch).data ++ String.data ".zip") =
        (GodotVersion.godotVPrefix ++ renderSemVer ⟨M, m, p, [], build⟩) ++
          (String.data "-stable_" ++ (String.data "mono_" ++
            ((GodotVersion.get_platform_suffix os arch).data ++ String.data ".zip"))) from by
          simp only [List.append_assoc, List.cons_append]
          rfl]
      exact containsSub_append_mid _ _ _

/-- C3 counterexample: with build metadata (accepted by the strict grammar) a
stable version-part is the raw semver rendering (`4.2.1+x-beta.1-stable`), not
the canonical display string with `-stable` appended (`4.2.1+x-beta1-stable`):
the claim's version-part rule fails on this constructed value. -/
theorem c3_counterexample :
    GodotVersion.new "4.2.1+x-beta.1" false =
      Except.ok ⟨⟨4, 2, 1, [], [String.data "x-beta", String.data "1"]⟩, false⟩ ∧
    GodotVersion.archive_name "linux" "x86_64"
        ⟨⟨4, 2, 1, [], [String.data "x-beta", String.data "1"]⟩, false⟩ =
      "Godot_v4.2.1+x-beta.1-stable_linux.x86_64.zip" ∧
    GodotVersion.godot_version_string
        ⟨⟨4, 2, 1, [], [String.data "x-beta", String.data "1"]⟩, false⟩ = "4.2.1+x-beta1" ∧
    ("Godot_v4.2.1+x-beta.1-stable_linux.x86_64.zip" : String) ≠
      "Godot_v4.2.1+x-beta1-stable_linux.x86_64.zip" :=
  ⟨rfl, rfl, rfl, by decide⟩

/-- C3 witness: the amended form at a concrete prerelease managed-runtime
value. -/
theorem c3_witness :
    GodotVersion.archive_name "linux" "x86_64"
        ⟨⟨4, 3, 0, [String.data "beta", String.data "2"], []⟩, true⟩ =
      "Godot_v4.3.0-beta2_mono_linux.x86_64.zip" := by
  have h := (c3_archive_name "linux" "x86_64"
    ⟨⟨4, 3, 0, [String.data "beta", String.data "2"], []⟩, true⟩).1 rfl
  rw [h]
  rfl

/-! ## Shared machinery for the normalizer/parser claims -/

theorem validNumeral_parts (d : List Char) (h : validNumeral d = true) :
    d ≠ [] ∧ d.all isDigitChar = true := by
  unfold validNumeral at h
  simp only [Bool.and_eq_true, Bool.not_eq_true', List.isEmpty_eq_false] at h
  exact ⟨by simpa using h.1.1.1, h.1.1.2⟩

theorem not_mem_of_all_digits (l : List Char) (hall : l.all isDigitChar = true) (c : Char)
    (hc : isDigitChar c = false) : c ∉ l := by
  intro h
  have := List.all_eq_true.mp hall _ h
  rw [hc] at this
  exact Bool.false_ne_true this

theorem fixTag_none (tag c : List Char) (h : containsSub tag c = false) :
    GodotVersion.fixTag tag c = none := by
  unfold GodotVersion.fixTag
  rw [if_neg (fun hc => by
    rw [h] at hc
    exact Bool.false_ne_true hc.1)]

theorem fixPreChain_id (cl : List Char)
    (hB : GodotVersion.fixTag GodotVersion.betaTag cl = none)
    (hR : GodotVersion.fixTag GodotVersion.rcTag cl = none)
    (hA : GodotVersion.fixTag GodotVersion.alphaTag cl = none) :
    GodotVersion.fixPreChain cl = cl := by
  unfold GodotVersion.fixPreChain
  rw [hB, hR, hA]

theorem takeWhile_all_eq (p : Char → Bool) (l : List Char) (h : ∀ c ∈ l, p c = true) :
    l.takeWhile p = l := by
  induction l with
  | nil => rfl
  | cons c rest ih =>
    rw [List.takeWhile_cons, h c (List.mem_cons_self c rest)]
    simp [ih (fun d hd => h d (List.mem_cons_of_mem _ hd))]

theorem dropWhile_all_eq (p : Char → Bool) (l : List Char) (h : ∀ c ∈ l, p c = true) :
    l.dropWhile p = [] := by
  induction l with
  | nil => rfl
  | cons c rest ih =>
    rw [List.dropWhile_cons, if_pos (h c (List.mem_cons_self c rest))]
    exact ih (fun d hd => h d (List.mem_cons_of_mem _ hd))

theorem parseVersion_major_step (d1 l2 : List Char) (h1 : validNumeral d1 = true) :
    parseVersion (d1 ++ '.' :: l2) = parseMinorStage (digitsVal d1) l2 := by
  obtain ⟨hn1, ha1⟩ := validNumeral_parts d1 h1
  have hd1 := List.all_eq_true.mp ha1
  unfold parseVersion
  rw [takeWhile_append_all _ d1 _ hd1, takeWhile_cons_false _ '.' _ (by decide),
    List.append_nil, dropWhile_append_all _ d1 _ hd1,
    dropWhile_cons_false _ '.' _ (by decide), if_pos h1]
  rfl

theorem parseMinorStage_step (a : Nat) (d2 l3 : List Char) (h2 : validNumeral d2 = true) :
    parseMinorStage a (d2 ++ '.' :: l3) = parsePatchStage a (digitsVal d2) l3 := by
  obtain ⟨hn2, ha2⟩ := validNumeral_parts d2 h2
  have hd2 := List.all_eq_true.mp ha2
  unfold parseMinorStage
  rw [takeWhile_append_all _ d2 _ hd2, takeWhile_cons_false _ '.' _ (by decide),
    List.append_nil, dropWhile_append_all _ d2 _ hd2,
    dropWhile_cons_false _ '.' _ (by decide), if_pos h2]
  rfl

theorem padShort_two_numeric (c p0 p1 : List Char) (hs : splitOnChar '.' c = [p0, p1])
    (hnum : p1.all isNumericChar = true) :
    GodotVersion.padShort c = c ++ ['.', '0'] := by
  unfold GodotVersion.padShort
  rw [hs]
  dsimp only []
  rw [if_pos hnum]

theorem padShort_single (c : List Char) (hs : splitOnChar '.' c = [c]) :
    GodotVersion.padShort c = c := by
  unfold GodotVersion.padShort
  rw [hs]

theorem normalizeList_two_numeric (d1 d2 : List Char)
    (ha1 : d1.all isDigitChar = true) (ha2 : d2.all isDigitChar = true) :
    GodotVersion.normalizeList (d1 ++ '.' :: d2) = (d1 ++ '.' :: d2) ++ ['.', '0'] := by
  have hchars : ∀ c ∈ d1 ++ '.' :: d2, isDigitChar c = true ∨ c = '.' := by
    intro c hc
    rcases List.mem_append.mp hc with h | h
    · exact Or.inl (List.all_eq_true.mp ha1 _ h)
    · rcases List.mem_cons.mp h with rfl | h
      · exact Or.inr rfl
      · exact Or.inl (List.all_eq_true.mp ha2 _ h)
  have hchars2 : ∀ c ∈ (d1 ++ '.' :: d2) ++ ['.', '0'], isDigitChar c = true ∨ c = '.' := by
    intro c hc
    rcases List.mem_append.mp hc with h | h
    · exact hchars c h
    · rcases List.mem_cons.mp h with rfl | h
      · exact Or.inr rfl
      · rcases List.mem_cons.mp h with rfl | h
        · exact Or.inl (by decide)
        · exact absurd h (List.not_mem_nil c)
  have hnws : ∀ c ∈ d1 ++ '.' :: d2, isRustWhitespace c = false := by
    intro c hc
    rcases hchars c hc with h | rfl
    · exact goodChar_not_ws c (digitChar_goodChar c h)
    · decide
  have htrim : trimList (d1 ++ '.' :: d2) = d1 ++ '.' :: d2 := trimList_eq_self _ hnws
  have hstrip : stripSuffixOnce GodotVersion.stableTag (d1 ++ '.' :: d2) = d1 ++ '.' :: d2 := by
    apply stripSuffixOnce_of_not_mem _ _ 'e' (by decide)
    intro h
    rcases hchars 'e' h with hd | hd
    · exact absurd hd (by decide)
    · exact absurd hd (by decide)
  have hsplit : splitOnChar '.' (d1 ++ '.' :: d2) = [d1, d2] := by
    rw [splitOnChar_append '.' d1 d2 (not_mem_of_all_digits d1 ha1 '.' (by decide)),
      splitOnChar_not_mem '.' d2 (not_mem_of_all_digits d2 ha2 '.' (by decide))]
  have hpad := padShort_two_numeric (d1 ++ '.' :: d2) d1 d2 hsplit ha2
  have hnodash : ∀ tag : List Char, '-' ∈ tag →
      containsSub tag ((d1 ++ '.' :: d2) ++ ['.', '0']) = false := by
    intro tag htag
    apply containsSub_eq_false_of_not_mem _ _ '-' htag
    intro h
    rcases hchars2 '-' h with hd | hd
    · exact absurd hd (by decide)
    · exact absurd hd (by decide)
  simp only [GodotVersion.normalizeList]
  rw [htrim, hstrip, hpad]
  exact fixPreChain_id _ (fixTag_none _ _ (hnodash _ (by decide)))
    (fixTag_none _ _ (hnodash _ (by decide))) (fixTag_none _ _ (hnodash _ (by decide)))

theorem normalizeList_all_digits (d1 : List Char) (ha1 : d1.all isDigitChar = true) :
    GodotVersion.normalizeList d1 = d1 := by
  have hnws : ∀ c ∈ d1, isRustWhitespace c = false := fun c hc =>
    goodChar_not_ws c (digitChar_goodChar c (List.all_eq_true.mp ha1 _ hc))
  have htrim := trimList_eq_self _ hnws
  have hstrip : stripSuffixOnce GodotVersion.stableTag d1 = d1 :=
    stripSuffixOnce_of_not_mem _ _ 'e' (by decide)
      (not_mem_of_all_digits d1 ha1 'e' (by decide))
  have hpad := padShort_single d1
    (splitOnChar_not_mem '.' d1 (not_mem_of_all_digits d1 ha1 '.' (by decide)))
  have hnodash : ∀ tag : List Char, '-' ∈ tag → containsSub tag d1 = false := fun tag htag =>
    containsSub_eq_false_of_not_mem _ _ '-' htag (not_mem_of_all_digits d1 ha1 '-' (by decide))
  simp only [GodotVersion.normalizeList]
  rw [htrim, hstrip, hpad]
  exact fixPreChain_id _ (fixTag_none _ _ (hnodash _ (by decide)))
    (fixTag_none _ _ (hnodash _ (by decide))) (fixTag_none _ _ (hnodash _ (by decide)))

theorem parseVersion_two_pad (d1 d2 : List Char)
    (h1 : validNumeral d1 = true) (h2 : validNumeral d2 = true) :
    parseVersion ((d1 ++ '.' :: d2) ++ ['.', '0']) =
      some ⟨digitsVal d1, digitsVal d2, 0, [], []⟩ := by
  rw [show (d1 ++ '.' :: d2) ++ ['.', '0'] = d1 ++ '.' :: (d2 ++ '.' :: ['0']) from by simp,
    parseVersion_major_step d1 _ h1, parseMinorStage_step _ d2 _ h2]
  rfl

theorem parseVersion_all_digits_none (d1 : List Char) (ha1 : d1.all isDigitChar = true) :
    parseVersion d1 = none := by
  have hd1 := List.all_eq_true.mp ha1
  unfold parseVersion
  rw [show d1.takeWhile isDigitChar = d1 from takeWhile_all_eq _ d1 hd1,
    show d1.dropWhile isDigitChar = [] from dropWhile_all_eq _ d1 hd1]
  by_cases hv : validNumeral d1 = true
  · rw [if_pos hv]
  · rw [if_neg hv]

theorem splitOn_render_stable (M mi pa : Nat) :
    splitOnChar '.' (renderSemVer ⟨M, mi, pa, [], []⟩) =
      [natToChars M, natToChars mi, natToChars pa] := by
  rw [renderSemVer_stable]
  rw [splitOnChar_append '.' _ _
      (fun h => absurd (natToChars_digits M '.' h) (by decide)),
    splitOnChar_append '.' _ _
      (fun h => absurd (natToChars_digits mi '.' h) (by decide)),
    splitOnChar_not_mem '.' _
      (fun h => absurd (natToChars_digits pa '.' h) (by decide))]

/-! ## Claim C1 -/

/-- C1 (amended): construction zero-pads two-component numeric inputs (patch
becomes 0) and the numeric core of an accepted version always renders as
exactly three dot-separated components; but an input supplying only one
numeric component is rejected by the strict parse, not zero-padded. -/
theorem c1_short_version_padding (d1 d2 : List Char) (b : Bool)
    (h1 : validNumeral d1 = true) (h2 : validNumeral d2 = true) :
    GodotVersion.new (String.mk (d1 ++ '.' :: d2)) b =
      Except.ok ⟨⟨digitsVal d1, digitsVal d2, 0, [], []⟩, b⟩ ∧
    GodotVersion.new (String.mk d1) b = Except.error GodotError.invalidVersionFormat ∧
    (∀ M mi pa : Nat, (splitOnChar '.' (renderSemVer ⟨M, mi, pa, [], []⟩)).length = 3) := by
  obtain ⟨hn1, ha1⟩ := validNumeral_parts d1 h1
  obtain ⟨hn2, ha2⟩ := validNumeral_parts d2 h2
  refine ⟨?_, ?_, ?_⟩
  · show (match parseVersion (GodotVersion.normalizeList (d1 ++ '.' :: d2)) with
      | some version => Except.ok (⟨version, b⟩ : GodotVersion)
      | none => Except.error GodotError.invalidVersionFormat) = _
    rw [normalizeList_two_numeric d1 d2 ha1 ha2, parseVersion_two_pad d1 d2 h1 h2]
  · show (match parseVersion (GodotVersion.normalizeList d1) with
      | some version => Except.ok (⟨version, b⟩ : GodotVersion)
      | none => Except.error GodotError.invalidVersionFormat) = _
    rw [normalizeList_all_digits d1 ha1, parseVersion_all_digits_none d1 ha1]
  · intro M mi pa
    rw [splitOn_render_stable]
    rfl

/-- C1 counterexample: a single numeric component is not zero-padded to a full
triple; construction fails on `"4"`. -/
theorem c1_counterexample :
    GodotVersion.new "4" false = Except.error GodotError.invalidVersionFormat := rfl

/-- C1 witness: `"4.3"` is zero-padded to `4.3.0` while `"4"` is rejected. -/
theorem c1_witness :
    GodotVersion.new "4.3" false = Except.ok ⟨⟨4, 3, 0, [], []⟩, false⟩ ∧
    GodotVersion.new "4" false = Except.error GodotError.invalidVersionFormat := by
  have h := c1_short_version_padding (String.data "4") (String.data "3") false
    (by decide) (by decide)
  exact ⟨h.1, h.2.1⟩

theorem isPrefixOf_congr (pat : List Char) :
    ∀ (x y1 y2 : List Char), pat.length ≤ x.length →
      pat.isPrefixOf (x ++ y1) = pat.isPrefixOf (x ++ y2) := by
  induction pat with
  | nil => intro x y1 y2 h; simp
  | cons p pt ih =>
    intro x y1 y2 h
    rcases x with _ | ⟨a, x2⟩
    · simp at h
    · simp only [List.cons_append, List.isPrefixOf, List.append_eq]
      rw [ih x2 y1 y2 (by simpa using h)]

theorem splitOnceSub_replay (pat : List Char) (hpat : pat ≠ []) :
    ∀ (l bse part q : List Char), splitOnceSub pat l = some (bse, part) →
      splitOnceSub pat (bse ++ (pat ++ q)) = some (bse, q) := by
  intro l
  induction l with
  | nil =>
    intro bse part q h
    rw [splitOnceSub, if_neg (by simpa using hpat)] at h
    exact absurd h (by simp)
  | cons c rest ih =>
    intro bse part q h
    rw [splitOnceSub] at h
    by_cases hp : pat.isPrefixOf (c :: rest)
    · rw [if_pos hp] at h
      obtain ⟨hb, hq⟩ := Prod.mk.injEq _ _ _ _ ▸ Option.some.inj h
      rw [← hb, List.nil_append]
      rcases pat with _ | ⟨p0, pt⟩
      · exact absurd rfl hpat
      · rw [List.cons_append, splitOnceSub,
          if_pos (by rw [List.isPrefixOf_iff_prefix, ← List.cons_append]; exact ⟨q, rfl⟩)]
        rw [show (p0 :: (pt ++ q)).drop (p0 :: pt).length = q from by
          rw [← List.cons_append, List.drop_left]]
    · rw [if_neg hp] at h
      rcases hs : splitOnceSub pat rest with _ | ⟨b0, p0⟩
      · rw [hs] at h
        exact absurd h (by simp)
      · rw [hs] at h
        simp only [Option.map, Option.some.injEq, Prod.mk.injEq] at h
        obtain ⟨hb, hpart⟩ := h
        have hrest := splitOnceSub_eq pat rest b0 p0 hs
        have hrecur := ih b0 p0 q hs
        rw [← hb, List.cons_append, splitOnceSub]
        have hpre2 : pat.isPrefixOf (c :: (b0 ++ (pat ++ q))) =
            pat.isPrefixOf (c :: rest) := by
          rw [show c :: (b0 ++ (pat ++ q)) = ((c :: b0) ++ pat) ++ q from by simp,
            show c :: rest = ((c :: b0) ++ pat) ++ p0 from by rw [hrest]; simp]
          exact isPrefixOf_congr pat _ q p0 (by simp only [List.length_append, List.length_cons]; omega)
        rw [if_neg (by rw [hpre2]; exact hp), hrecur]
        rfl

theorem parseU32_none_of_mem (l : List Char) (c : Char) (hc : c ∈ l)
    (hd : isDigitChar c = false) (hp : c ≠ '+') : parseU32 l = none := by
  have key : ∀ d : List Char, c ∈ d →
      (if d ≠ [] ∧ d.all isDigitChar = true ∧ digitsVal d ≤ 4294967295 then
        some (digitsVal d) else none) = none := by
    intro d hcd
    rw [if_neg]
    intro hcond
    have := List.all_eq_true.mp hcond.2.1 _ hcd
    rw [hd] at this
    exact Bool.false_ne_true this
  unfold parseU32
  split
  · next r =>
      apply key
      rcases List.mem_cons.mp hc with h | h
      · exact absurd h hp
      · exact h
  · next => exact key l hc

theorem suffix_shield (t tail pat b p : List Char) (c1 c2 : Char)
    (htail : tail <:+ t) (hsplit : splitOnceSub pat t = some (b, p))
    (hc1 : c1 ∈ pat) (hc1t : c1 ∉ tail)
    (hc2 : c2 ∈ tail) (hc2p : c2 ∉ pat) :
    c2 ∈ p := by
  have ht := splitOnceSub_eq pat t b p hsplit
  have hsuf : (pat ++ p) <:+ t := ⟨b, ht.symm⟩
  have hsufp : p <:+ t := (List.suffix_append pat p).trans hsuf
  rcases List.suffix_or_suffix_of_suffix htail hsufp with h | h
  · exact h.subset hc2
  · rcases List.suffix_or_suffix_of_suffix hsuf htail with h2 | h2
    · exact absurd (h2.subset (List.mem_append_left _ hc1)) hc1t
    · rcases List.mem_append.mp (h2.subset hc2) with hcp | hcp
      · exact absurd hcp hc2p
      · exact hcp

theorem fixTag_inv_some (tag cl r : List Char) (h : GodotVersion.fixTag tag cl = some r) :
    (∃ bse part n, splitOnceSub tag cl = some (bse, part) ∧ parseU32 part = some n ∧
      r = bse ++ tag ++ '.' :: natToChars n) ∨
    (∃ bse, splitOnceSub tag cl = some (bse, []) ∧ r = bse ++ tag) := by
  unfold GodotVersion.fixTag at h
  split at h
  · split at h
    · next bse part heq =>
        split at h
        · next n hu =>
            exact Or.inl ⟨bse, part, n, heq, hu, (Option.some.inj h).symm⟩
        · next hu =>
            split at h
            · next hp0 =>
                subst hp0
                exact Or.inr ⟨bse, heq, (Option.some.inj h).symm⟩
            · exact absurd h (by simp)
    · exact absurd h (by simp)
  · exact absurd h (by simp)

theorem fixTag_inv_none (tag cl : List Char) (h : GodotVersion.fixTag tag cl = none)
    (b p : List Char) (hs : splitOnceSub tag cl = some (b, p)) :
    containsSub (tag ++ ['.']) cl = true ∨ parseU32 p = none := by
  unfold GodotVersion.fixTag at h
  split at h
  · next hcond =>
      split at h
      · next bse part heq =>
          rw [hs] at heq
          obtain ⟨hb, hp⟩ := Prod.mk.injEq _ _ _ _ ▸ Option.some.inj heq
          split at h
          · next n hu => exact absurd h (by simp)
          · next hu =>
              right
              rw [← hp] at hu
              exact hu
      · next heq =>
          rw [hs] at heq
          exact absurd heq (by simp)
  · next hcond =>
      by_cases hdot : containsSub (tag ++ ['.']) cl = true
      · exact Or.inl hdot
      · exfalso
        apply hcond
        refine ⟨?_, hdot⟩
        rw [← splitOnceSub_isSome, hs]
        rfl

theorem fixTag_second_pass (tag t : List Char)
    (good : ∀ b p, splitOnceSub tag t = some (b, p) →
      containsSub (tag ++ ['.']) t = true ∨ p = [] ∨ parseU32 p = none) :
    GodotVersion.fixTag tag t = none ∨ GodotVersion.fixTag tag t = some t := by
  unfold GodotVersion.fixTag
  by_cases h1 : containsSub tag t = true ∧ ¬ containsSub (tag ++ ['.']) t = true
  · rw [if_pos h1]
    split
    · next bse part heq =>
        rcases good bse part heq with hdot | hrest
        · exact absurd hdot h1.2
        · have ht := splitOnceSub_eq tag t bse part heq
          split
          · next n hu =>
              rcases hrest with rfl | hnone
              · exact absurd hu (by simp [parseU32])
              · rw [hnone] at hu
                exact absurd hu (by simp)
          · next hu =>
              by_cases hp0 : part = []
              · rw [if_pos hp0]
                right
                subst hp0
                rw [ht]
                simp
              · rw [if_neg hp0]
                exact Or.inl rfl
    · exact Or.inl rfl
  · rw [if_neg h1]
    exact Or.inl rfl


theorem not_mem_tagdotnum (tag : List Char) (n : Nat) (c : Char) (hct : c ∉ tag)
    (hcd : c ≠ '.') (hdig : isDigitChar c = false) :
    c ∉ tag ++ '.' :: natToChars n := by
  intro h
  rcases List.mem_append.mp h with h | h
  · exact hct h
  · rcases List.mem_cons.mp h with h | h
    · exact hcd h
    · have := natToChars_digits n c h
      rw [hdig] at this
      exact Bool.false_ne_true this

theorem containsSub_tagdot (tag bse num : List Char) :
    containsSub (tag ++ ['.']) (bse ++ tag ++ '.' :: num) = true := by
  have h : bse ++ tag ++ '.' :: num = bse ++ ((tag ++ ['.']) ++ num) := by simp
  rw [h]
  exact containsSub_append_mid _ _ _

theorem good_cross (t tail pat b p : List Char) (c1 c2 : Char)
    (htail : tail <:+ t) (hsplit : splitOnceSub pat t = some (b, p))
    (hc1 : c1 ∈ pat) (hc1t : c1 ∉ tail) (hc2 : c2 ∈ tail) (hc2p : c2 ∉ pat)
    (hd : isDigitChar c2 = false) (hplus : c2 ≠ '+') :
    parseU32 p = none :=
  parseU32_none_of_mem p c2 (suffix_shield t tail pat b p c1 c2 htail hsplit hc1 hc1t hc2 hc2p)
    hd hplus

theorem fixPreChain_of_beta (cl r : List Char)
    (hb : GodotVersion.fixTag GodotVersion.betaTag cl = some r) :
    GodotVersion.fixPreChain cl = r := by
  unfold GodotVersion.fixPreChain
  rw [hb]

theorem fixPreChain_of_rc (cl r : List Char)
    (hb : GodotVersion.fixTag GodotVersion.betaTag cl = none)
    (hr : GodotVersion.fixTag GodotVersion.rcTag cl = some r) :
    GodotVersion.fixPreChain cl = r := by
  unfold GodotVersion.fixPreChain
  rw [hb, hr]

theorem fixPreChain_of_alpha (cl r : List Char)
    (hb : GodotVersion.fixTag GodotVersion.betaTag cl = none)
    (hr : GodotVersion.fixTag GodotVersion.rcTag cl = none)
    (ha : GodotVersion.fixTag GodotVersion.alphaTag cl = some r) :
    GodotVersion.fixPreChain cl = r := by
  unfold GodotVersion.fixPreChain
  rw [hb, hr, ha]

theorem fixPreChain_fix (t : List Char)
    (hb : GodotVersion.fixTag GodotVersion.betaTag t = none ∨
      GodotVersion.fixTag GodotVersion.betaTag t = some t)
    (hr : GodotVersion.fixTag GodotVersion.rcTag t = none ∨
      GodotVersion.fixTag GodotVersion.rcTag t = some t)
    (ha : GodotVersion.fixTag GodotVersion.alphaTag t = none ∨
      GodotVersion.fixTag GodotVersion.alphaTag t = some t) :
    GodotVersion.fixPreChain t = t := by
  rcases hb with hb | hb
  · rcases hr with hr | hr
    · rcases ha with ha | ha
      · exact fixPreChain_id t hb hr ha
      · exact fixPreChain_of_alpha t t hb hr ha
    · exact fixPreChain_of_rc t t hb hr
  · exact fixPreChain_of_beta t t hb

theorem padShort_long (c : List Char) (h : (splitOnChar '.' c).length ≠ 2) :
    GodotVersion.padShort c = c := by
  unfold GodotVersion.padShort
  split
  · next p0 p1 heq => exact absurd (congrArg List.length heq) h
  · rfl

theorem stripSuffixOnce_of_not_suffix (pat l : List Char)
    (h : pat.isSuffixOf l = false) : stripSuffixOnce pat l = l := by
  simp [stripSuffixOnce, h]

theorem good_hit_cross (ftag bse tag b p : List Char) (n : Nat) (c1 c2 : Char)
    (hsplit : splitOnceSub tag (bse ++ ftag ++ '.' :: natToChars n) = some (b, p))
    (hc1 : c1 ∈ tag) (hc1f : c1 ∉ ftag) (hc1d : c1 ≠ '.') (hc1dig : isDigitChar c1 = false)
    (hc2 : c2 ∈ ftag) (hc2t : c2 ∉ tag) (hc2dig : isDigitChar c2 = false) (hc2p : c2 ≠ '+') :
    parseU32 p = none := by
  apply good_cross (bse ++ ftag ++ '.' :: natToChars n) (ftag ++ '.' :: natToChars n)
    tag b p c1 c2
  · exact ⟨bse, by simp⟩
  · exact hsplit
  · exact hc1
  · exact not_mem_tagdotnum ftag n c1 hc1f hc1d hc1dig
  · exact List.mem_append_left _ hc2
  · exact hc2t
  · exact hc2dig
  · exact hc2p

theorem good_empty_cross (ftag bse tag b p : List Char) (c1 c2 : Char)
    (hsplit : splitOnceSub tag (bse ++ ftag) = some (b, p))
    (hc1 : c1 ∈ tag) (hc1f : c1 ∉ ftag)
    (hc2 : c2 ∈ ftag) (hc2t : c2 ∉ tag) (hc2dig : isDigitChar c2 = false) (hc2p : c2 ≠ '+') :
    parseU32 p = none :=
  good_cross (bse ++ ftag) ftag tag b p c1 c2 ⟨bse, rfl⟩ hsplit hc1 hc1f hc2 hc2t hc2dig hc2p

theorem good_empty_same (tag cl bse part b p : List Char) (hpat : tag ≠ [])
    (hsp : splitOnceSub tag cl = some (bse, part))
    (hsplit : splitOnceSub tag (bse ++ tag) = some (b, p)) : p = [] := by
  have h1 := splitOnceSub_replay tag hpat cl bse part [] hsp
  rw [List.append_nil] at h1
  have h2 := h1.symm.trans hsplit
  exact ((Prod.mk.injEq _ _ _ _ ▸ Option.some.inj h2).2).symm

theorem fixPreChain_good (cl tag : List Char)
    (htag : tag = GodotVersion.betaTag ∨ tag = GodotVersion.rcTag ∨
      tag = GodotVersion.alphaTag) (b p : List Char)
    (hsplit : splitOnceSub tag (GodotVersion.fixPreChain cl) = some (b, p)) :
    containsSub (tag ++ ['.']) (GodotVersion.fixPreChain cl) = true ∨ p = [] ∨
      parseU32 p = none := by
  rcases hb : GodotVersion.fixTag GodotVersion.betaTag cl with _ | rb
  · rcases hr : GodotVersion.fixTag GodotVersion.rcTag cl with _ | rr
    · rcases ha : GodotVersion.fixTag GodotVersion.alphaTag cl with _ | ra
      · rw [fixPreChain_id cl hb hr ha] at hsplit ⊢
        rcases htag with rfl | rfl | rfl
        · rcases fixTag_inv_none _ _ hb b p hsplit with h | h
          · exact Or.inl h
          · exact Or.inr (Or.inr h)
        · rcases fixTag_inv_none _ _ hr b p hsplit with h | h
          · exact Or.inl h
          · exact Or.inr (Or.inr h)
        · rcases fixTag_inv_none _ _ ha b p hsplit with h | h
          · exact Or.inl h
          · exact Or.inr (Or.inr h)
      · rw [fixPreChain_of_alpha cl ra hb hr ha] at hsplit ⊢
        rcases fixTag_inv_some _ _ _ ha with ⟨bse, part, n, hsp, hu, rfl⟩ | ⟨bse, hsp, rfl⟩
        · rcases htag with rfl | rfl | rfl
          · exact Or.inr (Or.inr (good_hit_cross GodotVersion.alphaTag bse
              GodotVersion.betaTag b p n 'b' 'l' hsplit (by decide) (by decide) (by decide)
              (by decide) (by decide) (by decide) (by decide) (by decide)))
          · exact Or.inr (Or.inr (good_hit_cross GodotVersion.alphaTag bse
              GodotVersion.rcTag b p n 'r' 'l' hsplit (by decide) (by decide) (by decide)
              (by decide) (by decide) (by decide) (by decide) (by decide)))
          · exact Or.inl (containsSub_tagdot _ bse (natToChars n))
        · rcases htag with rfl | rfl | rfl
          · exact Or.inr (Or.inr (good_empty_cross GodotVersion.alphaTag bse
              GodotVersion.betaTag b p 'b' 'l' hsplit (by decide) (by decide) (by decide)
              (by decide) (by decide) (by decide)))
          · exact Or.inr (Or.inr (good_empty_cross GodotVersion.alphaTag bse
              GodotVersion.rcTag b p 'r' 'l' hsplit (by decide) (by decide) (by decide)
              (by decide) (by decide) (by decide)))
          · exact Or.inr (Or.inl (good_empty_same GodotVersion.alphaTag cl bse [] b p
              (by decide) hsp hsplit))
    · rw [fixPreChain_of_rc cl rr hb hr] at hsplit ⊢
      rcases fixTag_inv_some _ _ _ hr with ⟨bse, part, n, hsp, hu, rfl⟩ | ⟨bse, hsp, rfl⟩
      · rcases htag with rfl | rfl | rfl
        · exact Or.inr (Or.inr (good_hit_cross GodotVersion.rcTag bse
            GodotVersion.betaTag b p n 'b' 'r' hsplit (by decide) (by decide) (by decide)
            (by decide) (by decide) (by decide) (by decide) (by decide)))
        · exact Or.inl (containsSub_tagdot _ bse (natToChars n))
        · exact Or.inr (Or.inr (good_hit_cross GodotVersion.rcTag bse
            GodotVersion.alphaTag b p n 'l' 'r' hsplit (by decide) (by decide) (by decide)
            (by decide) (by decide) (by decide) (by decide) (by decide)))
      · rcases htag with rfl | rfl | rfl
        · exact Or.inr (Or.inr (good_empty_cross GodotVersion.rcTag bse
            GodotVersion.betaTag b p 'b' 'r' hsplit (by decide) (by decide) (by decide)
            (by decide) (by decide) (by decide)))
        · exact Or.inr (Or.inl (good_empty_same GodotVersion.rcTag cl bse [] b p
            (by decide) hsp hsplit))
        · exact Or.inr (Or.inr (good_empty_cross GodotVersion.rcTag bse
            GodotVersion.alphaTag b p 'l' 'r' hsplit (by decide) (by decide) (by decide)
            (by decide) (by decide) (by decide)))
  · rw [fixPreChain_of_beta cl rb hb] at hsplit ⊢
    rcases fixTag_inv_some _ _ _ hb with ⟨bse, part, n, hsp, hu, rfl⟩ | ⟨bse, hsp, rfl⟩
    · rcases htag with rfl | rfl | rfl
      · exact Or.inl (containsSub_tagdot _ bse (natToChars n))
      · exact Or.inr (Or.inr (good_hit_cross GodotVersion.betaTag bse
          GodotVersion.rcTag b p n 'r' 'b' hsplit (by decide) (by decide) (by decide)
          (by decide) (by decide) (by decide) (by decide) (by decide)))
      · exact Or.inr (Or.inr (good_hit_cross GodotVersion.betaTag bse
          GodotVersion.alphaTag b p n 'l' 'b' hsplit (by decide) (by decide) (by decide)
          (by decide) (by decide) (by decide) (by decide) (by decide)))
    · rcases htag with rfl | rfl | rfl
      · exact Or.inr (Or.inl (good_empty_same GodotVersion.betaTag cl bse [] b p
          (by decide) hsp hsplit))
      · exact Or.inr (Or.inr (good_empty_cross GodotVersion.betaTag bse
          GodotVersion.rcTag b p 'r' 'b' hsplit (by decide) (by decide) (by decide)
          (by decide) (by decide) (by decide)))
      · exact Or.inr (Or.inr (good_empty_cross GodotVersion.betaTag bse
          GodotVersion.alphaTag b p 'l' 'b' hsplit (by decide) (by decide) (by decide)
          (by decide) (by decide) (by decide)))

theorem identChar_goodChar (c : Char) (h : isIdentChar c = true) : goodChar c = true := by
  simp [goodChar, h]

theorem parsePreIdsFuel_chars (fuel : Nat) :
    ∀ (l : List Char) (ids : List (List Char)) (rest : List Char),
      parsePreIdsFuel fuel l = some (ids, rest) →
      ∀ c ∈ l, isIdentChar c = true ∨ c = '.' ∨ c ∈ rest := by
  induction fuel with
  | zero =>
    intro l ids rest h c hc
    have hsplit := List.takeWhile_append_dropWhile (p := isIdentChar) (l := l)
    rw [← hsplit] at hc
    rcases List.mem_append.mp hc with hct | hcd
    · exact Or.inl (List.mem_takeWhile_imp hct)
    · unfold parsePreIdsFuel at h
      split at h
      · exact absurd h (by simp)
      · split at h
        · split at h
          · exact Option.noConfusion h
          · have hrest := (Prod.mk.injEq _ _ _ _ ▸ Option.some.inj h).2
            exact Or.inr (Or.inr (hrest ▸ hcd))
        · exact absurd h (by simp)
  | succ fuel ih =>
    intro l ids rest h c hc
    have hsplit := List.takeWhile_append_dropWhile (p := isIdentChar) (l := l)
    rw [← hsplit] at hc
    rcases List.mem_append.mp hc with hct | hcd
    · exact Or.inl (List.mem_takeWhile_imp hct)
    · unfold parsePreIdsFuel at h
      split at h
      · exact absurd h (by simp)
      · split at h
        · split at h
          · next r2 heq =>
              rw [heq] at hcd
              rcases List.mem_cons.mp hcd with rfl | hcr
              · exact Or.inr (Or.inl rfl)
              · have h2 : (match parsePreIdsFuel fuel r2 with
                    | some p => some (List.takeWhile isIdentChar l :: p.1, p.2)
                    | none => none) = some (ids, rest) := h
                rcases hpr : parsePreIdsFuel fuel r2 with _ | pr
                · rw [hpr] at h2
                  exact Option.noConfusion h2
                · rw [hpr] at h2
                  have hinj := Prod.mk.injEq _ _ _ _ ▸ Option.some.inj h2
                  rcases ih r2 pr.1 pr.2 hpr c hcr with hi | hi | hi
                  · exact Or.inl hi
                  · exact Or.inr (Or.inl hi)
                  · exact Or.inr (Or.inr (hinj.2 ▸ hi))
          · have hrest := (Prod.mk.injEq _ _ _ _ ▸ Option.some.inj h).2
            exact Or.inr (Or.inr (hrest ▸ hcd))
        · exact absurd h (by simp)

theorem parseBuildIdsFuel_chars (fuel : Nat) :
    ∀ (l : List Char) (ids : List (List Char)) (rest : List Char),
      parseBuildIdsFuel fuel l = some (ids, rest) →
      ∀ c ∈ l, isIdentChar c = true ∨ c = '.' ∨ c ∈ rest := by
  induction fuel with
  | zero =>
    intro l ids rest h c hc
    have hsplit := List.takeWhile_append_dropWhile (p := isIdentChar) (l := l)
    rw [← hsplit] at hc
    rcases List.mem_append.mp hc with hct | hcd
    · exact Or.inl (List.mem_takeWhile_imp hct)
    · unfold parseBuildIdsFuel at h
      split at h
      · exact absurd h (by simp)
      · split at h
        · exact Option.noConfusion h
        · have hrest := (Prod.mk.injEq _ _ _ _ ▸ Option.some.inj h).2
          exact Or.inr (Or.inr (hrest ▸ hcd))
  | succ fuel ih =>
    intro l ids rest h c hc
    have hsplit := List.takeWhile_append_dropWhile (p := isIdentChar) (l := l)
    rw [← hsplit] at hc
    rcases List.mem_append.mp hc with hct | hcd
    · exact Or.inl (List.mem_takeWhile_imp hct)
    · unfold parseBuildIdsFuel at h
      split at h
      · exact absurd h (by simp)
      · split at h
        · next r2 heq =>
            rw [heq] at hcd
            rcases List.mem_cons.mp hcd with rfl | hcr
            · exact Or.inr (Or.inl rfl)
            · have h2 : (match parseBuildIdsFuel fuel r2 with
                  | some p => some (List.takeWhile isIdentChar l :: p.1, p.2)
                  | none => none) = some (ids, rest) := h
              rcases hpr : parseBuildIdsFuel fuel r2 with _ | pr
              · rw [hpr] at h2
                exact Option.noConfusion h2
              · rw [hpr] at h2
                have hinj := Prod.mk.injEq _ _ _ _ ▸ Option.some.inj h2
                rcases ih r2 pr.1 pr.2 hpr c hcr with hi | hi | hi
                · exact Or.inl hi
                · exact Or.inr (Or.inl hi)
                · exact Or.inr (Or.inr (hinj.2 ▸ hi))
        · have hrest := (Prod.mk.injEq _ _ _ _ ▸ Option.some.inj h).2
          exact Or.inr (Or.inr (hrest ▸ hcd))

theorem parseRest_chars (a b c : Nat) (r : List Char) (v : SemVer)
    (h : parseRest a b c r = some v) : ∀ ch ∈ r, goodChar ch = true := by
  intro ch hch
  unfold parseRest at h
  split at h
  · exact absurd hch (List.not_mem_nil ch)
  · next l4 =>
      rcases List.mem_cons.mp hch with rfl | hch4
      · decide
      · split at h
        · next pre hpre =>
            rcases parsePreIdsFuel_chars l4.length l4 pre [] hpre ch hch4 with hi | rfl | hi
            · exact identChar_goodChar ch hi
            · decide
            · exact absurd hi (List.not_mem_nil ch)
        · next pre l5 hpre =>
            rcases parsePreIdsFuel_chars l4.length l4 pre ('+' :: l5) hpre ch hch4
              with hi | rfl | hi
            · exact identChar_goodChar ch hi
            · decide
            · rcases List.mem_cons.mp hi with rfl | hi5
              · decide
              · split at h
                · next build hb =>
                    rcases parseBuildIdsFuel_chars l5.length l5 build [] hb ch hi5
                      with hj | rfl | hj
                    · exact identChar_goodChar ch hj
                    · decide
                    · exact absurd hj (List.not_mem_nil ch)
                · exact Option.noConfusion h
        · exact Option.noConfusion h
  · next l4 =>
      rcases List.mem_cons.mp hch with rfl | hch4
      · decide
      · split at h
        · next build hb =>
            rcases parseBuildIdsFuel_chars l4.length l4 build [] hb ch hch4 with hj | rfl | hj
            · exact identChar_goodChar ch hj
            · decide
            · exact absurd hj (List.not_mem_nil ch)
        · exact Option.noConfusion h
  · exact Option.noConfusion h

theorem parseVersion_inv (l : List Char) (v : SemVer) (h : parseVersion l = some v) :
    (∀ c ∈ l, goodChar c = true) ∧
    ∃ d1 d2 l3, l = d1 ++ '.' :: (d2 ++ '.' :: l3) ∧
      d1.all isDigitChar = true ∧ d1 ≠ [] ∧ d2.all isDigitChar = true ∧ d2 ≠ [] := by
  unfold parseVersion at h
  split at h
  · next hv1 =>
      split at h
      · next l2 heq2 =>
          unfold parseMinorStage at h
          split at h
          · next hv2 =>
              split at h
              · next l3 heq3 =>
                  unfold parsePatchStage at h
                  split at h
                  · next hv3 =>
                      obtain ⟨hn1, ha1⟩ := validNumeral_parts _ hv1
                      obtain ⟨hn2, ha2⟩ := validNumeral_parts _ hv2
                      have hld : l = List.takeWhile isDigitChar l ++ '.' :: l2 := by
                        have h0 := List.takeWhile_append_dropWhile (p := isDigitChar) (l := l)
                        rw [heq2] at h0
                        exact h0.symm
                      have hl2d : l2 = List.takeWhile isDigitChar l2 ++ '.' :: l3 := by
                        have h0 := List.takeWhile_append_dropWhile (p := isDigitChar) (l := l2)
                        rw [heq3] at h0
                        exact h0.symm
                      have hrest := parseRest_chars _ _ _ _ v h
                      refine ⟨?_, List.takeWhile isDigitChar l, List.takeWhile isDigitChar l2,
                        l3, ?_, ha1, hn1, ha2, hn2⟩
                      · intro c hc
                        have hc2 : c ∈ List.takeWhile isDigitChar l ++ '.' :: l2 := hld ▸ hc
                        rcases List.mem_append.mp hc2 with h1 | h1
                        · exact digitChar_goodChar c (List.mem_takeWhile_imp h1)
                        · rcases List.mem_cons.mp h1 with rfl | h1
                          · decide
                          · have hc3 : c ∈ List.takeWhile isDigitChar l2 ++ '.' :: l3 :=
                              hl2d ▸ h1
                            rcases List.mem_append.mp hc3 with h2 | h2
                            · exact digitChar_goodChar c (List.mem_takeWhile_imp h2)
                            · rcases List.mem_cons.mp h2 with rfl | h2
                              · decide
                              · have hc4 : c ∈ List.takeWhile isDigitChar l3 ++
                                    List.dropWhile isDigitChar l3 := by
                                  rw [List.takeWhile_append_dropWhile]
                                  exact h2
                                rcases List.mem_append.mp hc4 with h3 | h3
                                · exact digitChar_goodChar c (List.mem_takeWhile_imp h3)
                                · exact hrest c h3
                      · rw [← hl2d]
                        exact hld
                  · exact Option.noConfusion h
              · exact Option.noConfusion h
          · exact Option.noConfusion h
      · exact Option.noConfusion h
  · exact Option.noConfusion h

theorem splitOnChar_length_three (d1 d2 l3 : List Char)
    (h1 : '.' ∉ d1) (h2 : '.' ∉ d2) :
    3 ≤ (splitOnChar '.' (d1 ++ '.' :: (d2 ++ '.' :: l3))).length := by
  rw [splitOnChar_append '.' d1 _ h1, List.length_cons,
    splitOnChar_append '.' d2 _ h2, List.length_cons]
  have h3 : 0 < (splitOnChar '.' l3).length :=
    List.length_pos.mpr (splitOnChar_ne_nil '.' l3)
  omega

/-- C9 (corrected): the normalizer is not idempotent on all of its outputs,
but it is on every output that the strict grammar accepts and that does not
end in `-stable`: a second normalization pass returns such a string
unchanged. -/
theorem c9_normalize_idempotent_on_outputs (s t : String) (v : SemVer)
    (hnorm : GodotVersion.normalize_version_string s = .ok t)
    (hparse : parseVersion t.data = some v)
    (hsuf : List.isSuffixOf GodotVersion.stableTag t.data = false) :
    GodotVersion.normalize_version_string t = .ok t := by
  have htd : t.data = GodotVersion.normalizeList s.data := by
    have h1 := hnorm
    unfold GodotVersion.normalize_version_string at h1
    injection h1 with h2
    rw [← h2]
  obtain ⟨hchars, d1, d2, l3, hshape, ha1, hn1, ha2, hn2⟩ := parseVersion_inv t.data v hparse
  have htrim : trimList t.data = t.data :=
    trimList_eq_self _ (fun c hc => goodChar_not_ws c (hchars c hc))
  have hstrip : stripSuffixOnce GodotVersion.stableTag t.data = t.data :=
    stripSuffixOnce_of_not_suffix _ _ hsuf
  have hpad : GodotVersion.padShort t.data = t.data := by
    apply padShort_long
    have h3 := splitOnChar_length_three d1 d2 l3
      (not_mem_of_all_digits d1 ha1 '.' (by decide))
      (not_mem_of_all_digits d2 ha2 '.' (by decide))
    rw [hshape]
    omega
  have hgood : ∀ tag : List Char, tag = GodotVersion.betaTag ∨ tag = GodotVersion.rcTag ∨
      tag = GodotVersion.alphaTag →
      ∀ b p, splitOnceSub tag t.data = some (b, p) →
        containsSub (tag ++ ['.']) t.data = true ∨ p = [] ∨ parseU32 p = none := by
    intro tag htag b p hsp
    rw [htd] at hsp ⊢
    simp only [GodotVersion.normalizeList] at hsp ⊢
    exact fixPreChain_good _ tag htag b p hsp
  have hfix : GodotVersion.fixPreChain t.data = t.data := by
    apply fixPreChain_fix
    · exact fixTag_second_pass _ _ (hgood _ (Or.inl rfl))
    · exact fixTag_second_pass _ _ (hgood _ (Or.inr (Or.inl rfl)))
    · exact fixTag_second_pass _ _ (hgood _ (Or.inr (Or.inr rfl)))
  have hall : GodotVersion.normalizeList t.data = t.data := by
    unfold GodotVersion.normalizeList
    rw [htrim, hstrip, hpad, hfix]
  unfold GodotVersion.normalize_version_string
  rw [hall]

/-- C9 counterexample: `"4.2.1-stable"` is a fixed point of the strict
grammar's canonical form (it parses and re-renders as itself), yet
normalization rewrites it to `"4.2.1"`; it is itself the normalizer's output
on `"4.2.1-stable-stable"`, so normalizing the output of normalization can
change it. -/
theorem c9_counterexample :
    (parseVersion (String.data "4.2.1-stable") =
        some ⟨4, 2, 1, [['s', 't', 'a', 'b', 'l', 'e']], []⟩ ∧
      renderSemVer ⟨4, 2, 1, [['s', 't', 'a', 'b', 'l', 'e']], []⟩ =
        String.data "4.2.1-stable" ∧
      GodotVersion.normalize_version_string "4.2.1-stable" ≠ .ok "4.2.1-stable") ∧
    GodotVersion.normalize_version_string "4.2.1-stable-stable" = .ok "4.2.1-stable" ∧
    GodotVersion.normalize_version_string "4.2.1-stable" = .ok "4.2.1" :=
  ⟨⟨rfl, rfl, by
    intro hcontra
    have hval : GodotVersion.normalize_version_string "4.2.1-stable" =
        Except.ok "4.2.1" := rfl
    rw [hval] at hcontra
    injection hcontra with hstr
    exact absurd hstr (by decide)⟩, rfl, rfl⟩

/-- C9 witness: `"4.1.0-rc.1"` is the normalizer's output on `"4.1.0-rc1"`,
parses under the strict grammar, does not end in `-stable`, and a second
normalization pass leaves it unchanged. -/
theorem c9_witness :
    GodotVersion.normalize_version_string "4.1.0-rc1" = .ok "4.1.0-rc.1" ∧
    parseVersion (String.data "4.1.0-rc.1") = some ⟨4, 1, 0, [['r', 'c'], ['1']], []⟩ ∧
    List.isSuffixOf GodotVersion.stableTag (String.data "4.1.0-rc.1") = false ∧
    GodotVersion.normalize_version_string "4.1.0-rc.1" = .ok "4.1.0-rc.1" :=
  ⟨rfl, rfl, rfl, c9_normalize_idempotent_on_outputs "4.1.0-rc1" "4.1.0-rc.1"
    ⟨4, 1, 0, [['r', 'c'], ['1']], []⟩ rfl rfl rfl⟩
